import Mathlib

/-!
Verification development for the `ungzip` repository: a shallow embedding of
the DEFLATE decoder core (`src/decompress.c`, `src/huffman_code.c`,
`src/huffman_tree.c`) together with theorems settling the specification
claims about it.

Modelling conventions:
* machine integers become `Nat` with explicit `% 2 ^ w` exactly where the C
  arithmetic can wrap (the `uint16_t` canonical-code counters, byte reads);
* the input buffer is a `List Nat` of bytes; reads go through `byteAt`,
  which truncates to 8 bits just as loading a `uint8_t` does;
* C functions that return `bool` and mutate `struct decompression_data` in
  place become functions returning `Bool × DState` (the returned state is
  the mutated struct, also on failure), functions whose partial mutations
  are never observed on failure become `Option`-valued;
* the output file plus the 8192-byte `out_buf` are modelled as the single
  list `out` of all bytes emitted so far; `fwrite` cannot fail in the model
  (the sink is infallible), which only removes the `WriteFailure` paths;
* `malloc` cannot fail in the model.
-/

/-! ## Bit cursor (`struct decompression_data.{buf, buf_len, buf_pos, byte_pos}`) -/

/-- Read a byte of the input buffer, as loading `uint8_t buf[i]` does
(out-of-range reads never happen on paths the theorems talk about). -/
def byteAt (buf : List Nat) (i : Nat) : Nat := buf.getD i 0 % 256

/-- A little-endian 16-bit field `buf[i] + 256 * buf[i+1]`. -/
def le16 (buf : List Nat) (i : Nat) : Nat := byteAt buf i + 256 * byteAt buf (i + 1)

/-- The bit cursor into the input buffer: `buf`, `buf_pos`, `byte_pos`. -/
structure Cursor where
  buf : List Nat
  buf_pos : Nat
  byte_pos : Nat
deriving DecidableEq, Repr

/-- `increment_bit_position` (decompress.c:195). -/
def increment_bit_position (c : Cursor) : Cursor :=
  if c.byte_pos = 7 then ⟨c.buf, c.buf_pos + 1, 0⟩ else ⟨c.buf, c.buf_pos, c.byte_pos + 1⟩

/-- One bit read, as done inline by `read_bits` / `find_huffman_code`:
fail when `buf_pos >= buf_len`, else return `(buf[buf_pos] >> byte_pos) & 1`
and advance the cursor. -/
def read_bit1 (c : Cursor) : Option (Bool × Cursor) :=
  if c.buf_pos < c.buf.length then
    some ((byteAt c.buf c.buf_pos).testBit c.byte_pos, increment_bit_position c)
  else none

/-- The accumulation loop of `read_bits` (decompress.c:302): `i` is the loop
counter (the bit goes to position `i` of the result), `k` the remaining
iterations, `acc` the value of `tmp` so far. `tmp |= (1u << i)` is `acc + 2 ^ i`
because bit `i` of `acc` is still clear. -/
def read_bits_go : Cursor → Nat → Nat → Nat → Option (Nat × Cursor)
  | c, acc, _, 0 => some (acc, c)
  | c, acc, i, k + 1 =>
    match read_bit1 c with
    | none => none
    | some (b, c') => read_bits_go c' (if b then acc + 2 ^ i else acc) (i + 1) k

/-- `read_bits` (decompress.c:302): read `n` bits, first bit consumed is the
LSB of the result. -/
def read_bits (n : Nat) (c : Cursor) : Option (Nat × Cursor) :=
  read_bits_go c 0 0 n

/-! ## Huffman tree (`struct node`, huffman_tree.c)

A C `struct node *` is either `NULL` (`tnil`), a leaf (`code != -1`; its
children are always `NULL` because `create_huffman_tree` only sets `code`
on freshly allocated nodes), or an internal node (`code == -1`). -/

/-- Huffman tree node / null pointer. -/
inductive Trie where
  | tnil : Trie
  | tleaf : Nat → Trie
  | tnode : Trie → Trie → Trie
deriving DecidableEq, Repr

/-- The child selected by one bit: bit 1 goes right, bit 0 left. -/
def childT (b : Bool) : Trie → Trie
  | .tnode l r => if b then r else l
  | _ => .tnil

/-- Replace the child selected by `b` (the `cur->right = tmp` / `cur->left = tmp`
assignments; in the C code the parent is always an internal node). -/
def setChild (b : Bool) (x : Trie) : Trie → Trie
  | .tnode l r => if b then .tnode l x else .tnode x r
  | t => t

/-- `find_huffman_code` (decompress.c:322): descend while `code == -1`,
consuming one bit per step; `NULL` node or input exhaustion is failure
(the C function signals both by returning a null pointer). -/
def find_huffman_code : Trie → Cursor → Option (Nat × Cursor)
  | .tnil, _ => none
  | .tleaf s, c => some (s, c)
  | .tnode l r, c =>
    match read_bit1 c with
    | none => none
    | some (true, c') => find_huffman_code r c'
    | some (false, c') => find_huffman_code l c'

/-! ## Fixed length/distance tables (decompress.c:31 and decompress.c:44) -/

/-- `length_data`: `{length, extra_bits}` for length codes 257 to 285. -/
def length_data : List (Nat × Nat) :=
  [(3, 0), (4, 0), (5, 0), (6, 0), (7, 0), (8, 0), (9, 0), (10, 0),
   (11, 1), (13, 1), (15, 1), (17, 1), (19, 2), (23, 2), (27, 2), (31, 2),
   (35, 3), (43, 3), (51, 3), (59, 3), (67, 4), (83, 4), (99, 4), (115, 4),
   (131, 5), (163, 5), (195, 5), (227, 5), (258, 0)]

/-- `dist_data`: `{distance, extra_bits}` for distance codes 0 to 29. -/
def dist_data : List (Nat × Nat) :=
  [(1, 0), (2, 0), (3, 0), (4, 0), (5, 1), (7, 1), (9, 2), (13, 2),
   (17, 3), (25, 3), (33, 4), (49, 4), (65, 5), (97, 5), (129, 6), (193, 6),
   (257, 7), (385, 7), (513, 8), (769, 8), (1025, 9), (1537, 9),
   (2049, 10), (3073, 10), (4097, 11), (6145, 11), (8193, 12), (12289, 12),
   (16385, 13), (24577, 13)]

/-! ## Decompression state and output -/

/-- `MAX_DISTANCE` (decompress.c:8). -/
def MAX_DISTANCE : Nat := 32768

/-- `struct decompression_data` minus the cursor: the 32768-byte cyclic
window (`back_refs`, modelled as a function from positions to bytes), its
write position and `filled` flag, and the emitted output (`out`, the
concatenation of everything written to the file plus the pending
`out_buf`). -/
structure DState where
  cur : Cursor
  back_refs : Nat → Nat
  back_refs_pos : Nat
  back_refs_filled : Bool
  out : List Nat

/-- One iteration of the loop body of `handle_literal_codes`
(decompress.c:234): emit a byte to the sink and the window, advance the
window position, update `filled`. -/
def emit_byte (st : DState) (b : Nat) : DState :=
  let pos' := (st.back_refs_pos + 1) % MAX_DISTANCE
  { st with
    out := st.out ++ [b]
    back_refs := fun j => if j = st.back_refs_pos then b else st.back_refs j
    back_refs_pos := pos'
    back_refs_filled := st.back_refs_filled || decide (pos' = 0) }

/-- `handle_literal_codes` (decompress.c:231). The `fwrite` flushes cannot
fail in the model, so the function always succeeds. -/
def handle_literal_codes (st : DState) (codes : List Nat) : DState :=
  codes.foldl emit_byte st

/-! ## Stored block (BTYPE = 00), decompress.c:262 -/

/-- The byte alignment at the top of `decompress_block_type_00`. -/
def align00 (c : Cursor) : Cursor :=
  if c.byte_pos ≠ 0 then ⟨c.buf, c.buf_pos + 1, 0⟩ else c

/-- `decompress_block_type_00`: align, read LEN/NLEN, require
`LEN == (uint16_t)(~NLEN)` (that is `LEN = 65535 - NLEN`), require LEN
payload bytes, emit them. Returns `(success, mutated state)` as the C
function returns `bool` mutating `data` in place. -/
def decompress_block_type_00 (st : DState) : Bool × DState :=
  let c := align00 st.cur
  if c.buf_pos ≥ c.buf.length ∨ c.buf.length - c.buf_pos < 4 then
    (false, { st with cur := c })
  else
    let LEN := le16 c.buf c.buf_pos
    let NLEN := le16 c.buf (c.buf_pos + 2)
    let c2 : Cursor := ⟨c.buf, c.buf_pos + 4, c.byte_pos⟩
    if LEN ≠ 65535 - NLEN then (false, { st with cur := c2 })
    else if c2.buf_pos ≥ c2.buf.length ∨ c2.buf.length - c2.buf_pos < LEN then
      (false, { st with cur := c2 })
    else
      let payload := (List.range LEN).map fun i => byteAt c2.buf (c2.buf_pos + i)
      let st2 := handle_literal_codes { st with cur := c2 } payload
      (true, { st2 with cur := ⟨c2.buf, c2.buf_pos + LEN, c2.byte_pos⟩ })

/-! ## Length and distance decoding (decompress.c:349 and decompress.c:384) -/

/-- `is_length_code` (decompress.c:206). -/
def is_length_code (code : Nat) : Bool := 257 ≤ code && code ≤ 285

/-- `is_distance_code` (decompress.c:221). -/
def is_distance_code (code : Nat) : Bool := code ≤ 29

/-- `length_from_length_code` (decompress.c:349): base length plus extra
bits; value 31 of the 5 extra bits of code 284 is rejected; the result must
lie in `[3, 258]`. -/
def length_from_length_code (c : Cursor) (code : Nat) : Option (Nat × Cursor) :=
  if ¬ is_length_code code then none
  else
    let base := (length_data.getD (code - 257) (0, 0)).1
    let extra := (length_data.getD (code - 257) (0, 0)).2
    match read_bits extra c with
    | none => none
    | some (e, c') =>
      if code = 284 ∧ e = 31 then none
      else
        let len := base + e
        if len > 258 ∨ len < 3 then none else some (len, c')

/-- `distance_from_distance_code` (decompress.c:384): base distance plus
extra bits; the result must lie in `[1, 32768]`. -/
def distance_from_distance_code (c : Cursor) (code : Nat) : Option (Nat × Cursor) :=
  if ¬ is_distance_code code then none
  else
    let base := (dist_data.getD code (0, 0)).1
    let extra := (dist_data.getD code (0, 0)).2
    match read_bits extra c with
    | none => none
    | some (e, c') =>
      let dist := base + e
      if dist < 1 ∨ dist > 32768 then none else some (dist, c')

/-! ## Back-reference copy (`copy_bytes_from_distance`, decompress.c:411) -/

/-- The loop filling `bytes_to_copy` (decompress.c:423): read `back_refs[tmp]`,
advance `tmp` cyclically, reset `tmp` to `copy_start_pos` when it reaches
`back_refs_pos` (`stop`). -/
def copyTempGo (w : Nat → Nat) (stop start : Nat) : Nat → Nat → List Nat
  | _, 0 => []
  | tmp, k + 1 =>
    w tmp ::
      (let t' := (tmp + 1) % MAX_DISTANCE
       copyTempGo w stop start (if t' = stop then start else t') k)

/-- The `bytes_to_copy` contents for a copy of `len` bytes starting at
`start`. -/
def copyTemp (w : Nat → Nat) (stop start len : Nat) : List Nat :=
  copyTempGo w stop start start len

/-- `copy_bytes_from_distance` (decompress.c:411): compute
`copy_start_pos = (back_refs_pos - distance + MAX_DISTANCE) % MAX_DISTANCE`
(the C expression never goes negative because `distance ≤ 32768` and
`back_refs_pos < 32768` on every call), reject a reference reaching before
the start of a not-yet-wrapped window, then collect the bytes and emit them
through `handle_literal_codes`. -/
def copy_bytes_from_distance (st : DState) (length distance : Nat) : Bool × DState :=
  let start := (st.back_refs_pos + MAX_DISTANCE - distance) % MAX_DISTANCE
  if st.back_refs_filled = false ∧ st.back_refs_pos ≤ start then (false, st)
  else
    (true, handle_literal_codes st (copyTemp st.back_refs st.back_refs_pos start length))

/-! ## Canonical Huffman code generation (`generate_huffman_codes`, huffman_code.c:23) -/

/-- `code_length_counts[b]` after the counting loop, for `b ≥ 1`
(the entry for length 0 is zeroed before use). -/
def blCount (L : List Nat) (b : Nat) : Nat := L.countP (fun l => l == b)

/-- `next_code_for_length[b]`: the iteration
`code = (code + code_length_counts[bits-1]) << 1` in `uint16_t` arithmetic
(huffman_code.c:49), with `code_length_counts[0] = 0`. -/
def startCode (L : List Nat) : Nat → Nat
  | 0 => 0
  | b + 1 => ((startCode L b + (if b = 0 then 0 else blCount L b)) * 2) % 65536

/-- `get_huffman_code_string` (huffman_code.c:7): the `len` bits of `code`,
most significant first, as booleans instead of the characters '0'/'1'. -/
def codeBits (code len : Nat) : List Bool :=
  (List.range len).map fun i => code.testBit (len - 1 - i)

/-- The assignment loop (huffman_code.c:54): walk the symbols, give each
symbol of nonzero length the current `next_code_for_length` entry for its
length and increment that entry (again in `uint16_t` arithmetic); a
zero-length symbol gets the empty record `(0, 0)`. `nc` is the 16-entry
`next_code_for_length` table. -/
def assignVals : List Nat → List Nat → List (Nat × Nat)
  | [], _ => []
  | l :: rest, nc =>
    if l = 0 then (0, 0) :: assignVals rest nc
    else (l, nc.getD l 0) :: assignVals rest (nc.set l ((nc.getD l 0 + 1) % 65536))

/-- The full code assignment for a code-length vector: per symbol its code
length and its bit string. -/
def assignAll (L : List Nat) : List (Nat × List Bool) :=
  (assignVals L ((List.range 16).map fun b => startCode L b)).map
    fun p => (p.1, codeBits p.2 p.1)

/-- `generate_huffman_codes` (huffman_code.c:23): reject a vector longer
than 288 or containing a length above the limit or above 15, else produce
the assignment. -/
def generate_huffman_codes (L : List Nat) (limit : Nat) : Option (List (Nat × List Bool)) :=
  if L.length > 288 then none
  else if L.any (fun l => limit < l || 15 < l) then none
  else some (assignAll L)

/-! ## Huffman tree construction (`create_huffman_tree`, huffman_tree.c:8) -/

/-- Insertion of one nonempty code path (the inner loop of
`create_huffman_tree`, huffman_tree.c:38): walk the bits; at the last bit
the selected child must be `NULL` (else the leaf position is taken); at an
earlier bit the selected child must not be a leaf (else the path crosses a
leaf); missing internal nodes are allocated on the way. Failure frees the
tree and returns `NULL`, modelled as `none`. -/
def insertC : Trie → List Bool → Nat → Option Trie
  | _, [], _ => none
  | t, b :: p, sym =>
    if p = [] then
      match childT b t with
      | .tnil => some (setChild b (.tleaf sym) t)
      | _ => none
    else
      match childT b t with
      | .tleaf _ => none
      | .tnil =>
        match insertC (.tnode .tnil .tnil) p sym with
        | none => none
        | some t' => some (setChild b t' t)
      | .tnode l r =>
        match insertC (.tnode l r) p sym with
        | none => none
        | some t' => some (setChild b t' t)

/-- The outer loop of `create_huffman_tree`: insert every symbol's code in
symbol order, skipping zero-length symbols (their inner loop body never
runs). -/
def insertAll : Trie → List (List Bool × Nat) → Option Trie
  | t, [] => some t
  | t, (p, s) :: rest =>
    if p = [] then insertAll t rest
    else
      match insertC t p s with
      | none => none
      | some t' => insertAll t' rest

/-- `create_huffman_tree` (huffman_tree.c:8): reject more than 288 code
lengths, generate the canonical codes, then build the tree starting from a
fresh internal root. -/
def create_huffman_tree (L : List Nat) (limit : Nat) : Option Trie :=
  if L.length > 288 then none
  else
    match generate_huffman_codes L limit with
    | none => none
    | some cs => insertAll (.tnode .tnil .tnil) (cs.enum.map fun p => (p.2.2, p.1))

/-! ## Dynamic-block code-length sequence (decompress.c:613) -/

/-- The `while (tmp--)` repeat loop for codes 16/17/18 (decompress.c:654):
append `v` up to `n` times, failing as soon as `cnt` (the accumulated
count, here `acc.length`) reaches `total`. -/
def clRepeat (v total : Nat) : List Nat → Nat → Option (List Nat)
  | acc, 0 => some acc
  | acc, n + 1 => if total ≤ acc.length then none else clRepeat v total (acc ++ [v]) n

/-- The `while (cnt < total)` loop of `decompress_block_type_10`
(decompress.c:617) that decodes the single sequence of
`ll_code_cnt + d_code_cnt` code lengths. The two C arrays indexed by a
running `cnt` are modelled as the single list `acc` of the code lengths
emitted so far (the C code writes exactly position `cnt` and increments
it). `prev` is `previous_code_length`. -/
def cl_decode_loop (t : Trie) (total : Nat) :
    Cursor → Nat → List Nat → Option (List Nat × Cursor)
  | cur, prev, acc =>
    if h : total ≤ acc.length then some (acc, cur)
    else
      match find_huffman_code t cur with
      | none => none
      | some (code, cur1) =>
        if 18 < code then none
        else if code = 16 ∧ acc.length = 0 then none
        else if hc : code ≤ 15 then
          cl_decode_loop t total cur1 code (acc ++ [code])
        else if code = 16 then
          match read_bits 2 cur1 with
          | none => none
          | some (e, cur2) =>
            match hr : clRepeat prev total acc (e + 3) with
            | none => none
            | some acc' => cl_decode_loop t total cur2 prev acc'
        else
          match read_bits (if code = 17 then 3 else 7) cur1 with
          | none => none
          | some (e, cur2) =>
            match hr : clRepeat 0 total acc (e + (if code = 17 then 3 else 11)) with
            | none => none
            | some acc' => cl_decode_loop t total cur2 0 acc'
termination_by cur prev acc => total - acc.length
decreasing_by
  · simp only [List.length_append, List.length_cons, List.length_nil]
    omega
  · have key : ∀ n a a', clRepeat prev total a n = some a' → a'.length = a.length + n := by
      intro n
      induction n with
      | zero => intro a a' h; cases h; simp
      | succ m ih =>
        intro a a' h
        simp only [clRepeat] at h
        by_cases hl : total ≤ a.length
        · simp [hl] at h
        · simp only [if_neg hl] at h
          have := ih _ _ h
          simp at this
          omega
    have := key _ _ _ hr
    omega
  · have key : ∀ n a a', clRepeat 0 total a n = some a' → a'.length = a.length + n := by
      intro n
      induction n with
      | zero => intro a a' h; cases h; simp
      | succ m ih =>
        intro a a' h
        simp only [clRepeat] at h
        by_cases hl : total ≤ a.length
        · simp [hl] at h
        · simp only [if_neg hl] at h
          have := ih _ _ h
          simp at this
          omega
    have := key _ _ _ hr
    by_cases h17 : code = 17 <;> simp [h17] at this ⊢ <;> omega

/-! ## Derived definitions used by the theorems -/

/-- Reversal of a 5-bit value: bit 0 becomes bit 4 and so on. -/
def rev5 (v : Nat) : Nat :=
  16 * (v % 2) + 8 * (v / 2 % 2) + 4 * (v / 4 % 2) + 2 * (v / 8 % 2) + v / 16 % 2

/-- The canonical Huffman tree over 30 symbols whose code lengths are all 5,
written out: symbol `s` sits at the 5-bit MSB-first path of `s`; the paths
of the absent symbols 30 and 31 make the right-most depth-4 child `NULL`. -/
def fixedDistTreeLit : Trie :=
  .tnode
    (.tnode
      (.tnode
        (.tnode (.tnode (.tleaf 0) (.tleaf 1)) (.tnode (.tleaf 2) (.tleaf 3)))
        (.tnode (.tnode (.tleaf 4) (.tleaf 5)) (.tnode (.tleaf 6) (.tleaf 7))))
      (.tnode
        (.tnode (.tnode (.tleaf 8) (.tleaf 9)) (.tnode (.tleaf 10) (.tleaf 11)))
        (.tnode (.tnode (.tleaf 12) (.tleaf 13)) (.tnode (.tleaf 14) (.tleaf 15)))))
    (.tnode
      (.tnode
        (.tnode (.tnode (.tleaf 16) (.tleaf 17)) (.tnode (.tleaf 18) (.tleaf 19)))
        (.tnode (.tnode (.tleaf 20) (.tleaf 21)) (.tnode (.tleaf 22) (.tleaf 23))))
      (.tnode
        (.tnode (.tnode (.tleaf 24) (.tleaf 25)) (.tnode (.tleaf 26) (.tleaf 27)))
        (.tnode (.tnode (.tleaf 28) (.tleaf 29)) .tnil)))

/-- The set of leaf paths of a tree (bit 0 = left). -/
def tpaths : Trie → List (List Bool)
  | .tnil => []
  | .tleaf _ => [[]]
  | .tnode l r => (tpaths l).map (false :: ·) ++ (tpaths r).map (true :: ·)

/-- Whether a tree contains at least one leaf. -/
def hasLeaf : Trie → Bool
  | .tnil => false
  | .tleaf _ => true
  | .tnode l r => hasLeaf l || hasLeaf r

/-- Well-formedness invariant of trees built by `create_huffman_tree`:
every non-`NULL` child subtree contains a leaf (internal nodes are only
ever allocated on the path to some leaf). -/
def WF : Trie → Prop
  | .tnil => True
  | .tleaf _ => True
  | .tnode l r =>
    WF l ∧ WF r ∧ (l = .tnil ∨ hasLeaf l = true) ∧ (r = .tnil ∨ hasLeaf r = true)

/-- `leadsB p q`: the bit string `p` is an initial segment of `q`
(so the leaf of `p` lies on the descent path of `q`, or `p = q`). -/
def leadsB : List Bool → List Bool → Bool
  | [], _ => true
  | _ :: _, [] => false
  | a :: p, b :: q => (a == b) && leadsB p q

/-- Two code paths collide: one is an initial segment of the other
(equal paths — a duplicate leaf — included). -/
def pconfB (p q : List Bool) : Bool := leadsB p q || leadsB q p

/-- `p` collides with some path in `qs`. -/
def confAnyB (p : List Bool) (qs : List (List Bool)) : Bool := qs.any fun q => pconfB p q

/-- Some pair of paths in the list collides. -/
def hasConfB : List (List Bool) → Bool
  | [] => false
  | p :: rest => confAnyB p rest || hasConfB rest

/-- The nonempty code paths of a code assignment (zero-length symbols are
never inserted into the tree). -/
def nePaths (items : List (List Bool × Nat)) : List (List Bool) :=
  (items.map Prod.fst).filter fun p => !p.isEmpty

/-- Partial Kraft sum over lengths `1..b`, scaled by `2 ^ 15`:
`∑_{l=1}^{b} blCount L l * 2 ^ (15 - l)`. -/
def kraftPart (L : List Nat) : Nat → Nat
  | 0 => 0
  | b + 1 => kraftPart L b + blCount L (b + 1) * 2 ^ (14 - b)

/-- The Kraft sum `∑_{i, L[i] > 0} 2 ^ (15 - L[i])` of a code-length vector
with all lengths at most 15, grouped by length and scaled by `2 ^ 15`:
the histogram is a valid prefix-code histogram iff this is at most `2 ^ 15`. -/
def kraftSum (L : List Nat) : Nat := kraftPart L 15

/-- The numeric canonical code value assigned to symbol `i` of `L`. -/
def codeValAt (L : List Nat) (i : Nat) : Nat :=
  ((assignVals L ((List.range 16).map fun b => startCode L b)).getD i (0, 0)).2

/-- The fixed-Huffman literal/length code lengths built by
`decompress_block_type_01` (decompress.c:447): 8 for 0–143, 9 for 144–255,
7 for 256–279, 8 for 280–287. -/
def fixed_ll_lengths : List Nat :=
  (List.range 288).map fun i => if i < 144 then 8 else if i < 256 then 9 else if i < 280 then 7 else 8

/-! ## General helper lemmas -/

theorem copyTempGo_length (w : Nat → Nat) (stop start : Nat) :
    ∀ k tmp, (copyTempGo w stop start tmp k).length = k := by
  intro k
  induction k with
  | zero => intro tmp; rfl
  | succ n ih => intro tmp; simp [copyTempGo, ih]

theorem read_bits_go_lt (k : Nat) :
    ∀ c acc i v c', read_bits_go c acc i k = some (v, c') → acc < 2 ^ i →
      v < 2 ^ (i + k) := by
  induction k with
  | zero =>
    intro c acc i v c' h hacc
    simp only [read_bits_go, Option.some.injEq, Prod.mk.injEq] at h
    simp only [Nat.add_zero]
    omega
  | succ n ih =>
    intro c acc i v c' h hacc
    simp only [read_bits_go] at h
    cases hb : read_bit1 c with
    | none => rw [hb] at h; cases h
    | some p =>
      rw [hb] at h
      have hstep : (if p.1 then acc + 2 ^ i else acc) < 2 ^ (i + 1) := by
        have : 2 ^ (i + 1) = 2 ^ i + 2 ^ i := by ring
        by_cases hp : p.1 <;> simp [hp] <;> omega
      have := ih _ _ _ _ _ h hstep
      have harr : i + 1 + n = i + (n + 1) := by omega
      rw [harr] at this
      exact this

theorem read_bits_lt (n : Nat) (c : Cursor) (v : Nat) (c' : Cursor)
    (h : read_bits n c = some (v, c')) : v < 2 ^ n := by
  have := read_bits_go_lt n c 0 0 v c' h (by simp)
  simpa using this

/-! ## Claim C10 -/

/-- C10: `read_bits` with a bit count of 0 always succeeds, yields value 0
and leaves the cursor unchanged (also at end of input, since the statement
quantifies over every cursor); the zero-extra-bit length codes rely on
this: decoding length code 257 (whose extra-bit count is 0) succeeds with
length 3 and the cursor untouched for every cursor. -/
theorem C10_read_bits_zero (c : Cursor) :
    read_bits 0 c = some (0, c) ∧ length_from_length_code c 257 = some (3, c) := by
  refine ⟨rfl, ?_⟩
  simp [length_from_length_code, is_length_code, length_data, read_bits, read_bits_go]

/-! ## Claim C9 -/

/-- C9: a successful `length_from_length_code` always yields a length in
`[3, 258]`, hence every index the copy loop writes into the 258-byte
`bytes_to_copy` buffer (the loop counter values `0 .. length - 1`) is below
258, and the bytes collected fit in the buffer. -/
theorem C9_length_in_bounds (c : Cursor) (code len : Nat) (c' : Cursor)
    (h : length_from_length_code c code = some (len, c')) :
    3 ≤ len ∧ len ≤ 258 ∧ (∀ i ∈ List.range len, i < 258) ∧
      ∀ w stop start, (copyTemp w stop start len).length = len := by
  have hbounds : 3 ≤ len ∧ len ≤ 258 := by
    unfold length_from_length_code at h
    dsimp only [] at h
    split at h
    · cases h
    · split at h
      · cases h
      · split at h
        · cases h
        · split at h
          · cases h
          · simp only [Option.some.injEq, Prod.mk.injEq] at h
            omega
  refine ⟨hbounds.1, hbounds.2, ?_, ?_⟩
  · intro i hi
    simp only [List.mem_range] at hi
    omega
  · intro w stop start
    exact copyTempGo_length w stop start len start

theorem C9_length_in_bounds_w :
    length_from_length_code ⟨[30], 0, 0⟩ 284 = some (257, ⟨[30], 0, 5⟩) ∧
      3 ≤ 257 ∧ 257 ≤ 258 := by
  refine ⟨by decide, ?_, ?_⟩
  · exact (C9_length_in_bounds ⟨[30], 0, 0⟩ 284 257 ⟨[30], 0, 5⟩ (by decide)).1
  · exact (C9_length_in_bounds ⟨[30], 0, 0⟩ 284 257 ⟨[30], 0, 5⟩ (by decide)).2.1

/-! ## Claim C2 -/

theorem byteAt_lt (buf : List Nat) (i : Nat) : byteAt buf i < 256 :=
  Nat.mod_lt _ (by omega)

theorem le16_lt (buf : List Nat) (i : Nat) : le16 buf i < 65536 := by
  have h1 := byteAt_lt buf i
  have h2 := byteAt_lt buf (i + 1)
  unfold le16
  omega

/-- C2: for a stored block with at least 4 header bytes after byte alignment
and `LEN` payload bytes available, decoding succeeds iff the 16-bit `NLEN`
field is the bitwise complement of `LEN` (`NLEN = 65535 - LEN`); when it is
not, the decoder fails and emits no output bytes. -/
theorem C2_stored_block_len_nlen (st : DState)
    (h4 : ¬ ((align00 st.cur).buf_pos ≥ (align00 st.cur).buf.length ∨
        (align00 st.cur).buf.length - (align00 st.cur).buf_pos < 4))
    (havail : ¬ ((align00 st.cur).buf_pos + 4 ≥ (align00 st.cur).buf.length ∨
        (align00 st.cur).buf.length - ((align00 st.cur).buf_pos + 4) <
          le16 (align00 st.cur).buf (align00 st.cur).buf_pos)) :
    ((decompress_block_type_00 st).1 = true ↔
      le16 (align00 st.cur).buf ((align00 st.cur).buf_pos + 2) =
        65535 - le16 (align00 st.cur).buf (align00 st.cur).buf_pos) ∧
    (le16 (align00 st.cur).buf ((align00 st.cur).buf_pos + 2) ≠
        65535 - le16 (align00 st.cur).buf (align00 st.cur).buf_pos →
      (decompress_block_type_00 st).1 = false ∧
      (decompress_block_type_00 st).2.out = st.out) := by
  have hL := le16_lt (align00 st.cur).buf (align00 st.cur).buf_pos
  have hN := le16_lt (align00 st.cur).buf ((align00 st.cur).buf_pos + 2)
  unfold decompress_block_type_00
  dsimp only []
  rw [if_neg h4]
  by_cases hc : le16 (align00 st.cur).buf (align00 st.cur).buf_pos =
      65535 - le16 (align00 st.cur).buf ((align00 st.cur).buf_pos + 2)
  · rw [if_neg (by omega : ¬ le16 (align00 st.cur).buf (align00 st.cur).buf_pos ≠
      65535 - le16 (align00 st.cur).buf ((align00 st.cur).buf_pos + 2))]
    rw [if_neg havail]
    constructor
    · simp only [true_iff]
      omega
    · intro hne
      omega
  · rw [if_pos hc]
    constructor
    · simp only [Bool.false_eq_true, false_iff]
      omega
    · intro hne
      exact ⟨rfl, rfl⟩

theorem C2_stored_block_len_nlen_w :
    (decompress_block_type_00 ⟨⟨[3, 0, 252, 255, 97, 98, 99], 0, 0⟩,
        fun _ => 0, 0, false, []⟩).1 = true :=
  (C2_stored_block_len_nlen _ (by decide) (by decide)).1.mpr (by decide)

/-! ## Claim C4 -/

/-- C4: a successful `distance_from_distance_code` always yields a distance
`d` with `1 ≤ d ≤ 32768`; when the window has not wrapped, a back-reference
whose start position `(w - d) mod 32768` is at or beyond the write position
`w` is rejected by `copy_bytes_from_distance` with no state change (no
bytes emitted), and under `1 ≤ d ≤ 32768` the copy is accepted exactly when
`d` is at most the number of bytes written into the unwrapped window
(`d ≤ w`). -/
theorem C4_distance_window_validity (c c' : Cursor) (code d len : Nat) (st : DState) :
    (distance_from_distance_code c code = some (d, c') → 1 ≤ d ∧ d ≤ 32768) ∧
    (st.back_refs_filled = false →
      st.back_refs_pos ≤ (st.back_refs_pos + MAX_DISTANCE - d) % MAX_DISTANCE →
      copy_bytes_from_distance st len d = (false, st)) ∧
    (st.back_refs_filled = false → 1 ≤ d → d ≤ 32768 → st.back_refs_pos < 32768 →
      ((copy_bytes_from_distance st len d).1 = true ↔ d ≤ st.back_refs_pos)) := by
  refine ⟨?_, ?_, ?_⟩
  · intro h
    unfold distance_from_distance_code at h
    dsimp only [] at h
    split at h
    · cases h
    · split at h
      · cases h
      · split at h
        · cases h
        · simp only [Option.some.injEq, Prod.mk.injEq] at h
          omega
  · intro hf hge
    unfold copy_bytes_from_distance
    dsimp only []
    rw [if_pos ⟨hf, hge⟩]
  · intro hf hd1 hd2 hpos
    unfold copy_bytes_from_distance
    dsimp only []
    unfold MAX_DISTANCE
    by_cases hle : d ≤ st.back_refs_pos
    · have hstart : (st.back_refs_pos + 32768 - d) % 32768 = st.back_refs_pos - d := by
        have he : st.back_refs_pos + 32768 - d = (st.back_refs_pos - d) + 32768 := by omega
        rw [he, Nat.add_mod_right, Nat.mod_eq_of_lt (by omega)]
      rw [if_neg (by rw [hstart]; omega)]
      simpa using hle
    · have hstart : (st.back_refs_pos + 32768 - d) % 32768 = st.back_refs_pos + 32768 - d := by
        exact Nat.mod_eq_of_lt (by omega)
      rw [if_pos ⟨hf, by rw [hstart]; omega⟩]
      simpa using hle

theorem C4_distance_window_validity_w :
    (copy_bytes_from_distance ⟨⟨[], 0, 0⟩, fun _ => 0, 5, false, []⟩ 3 3).1 = true :=
  ((C4_distance_window_validity ⟨[], 0, 0⟩ ⟨[], 0, 0⟩ 0 3 3
    ⟨⟨[], 0, 0⟩, fun _ => 0, 5, false, []⟩).2.2 rfl (by omega) (by omega)
      (by decide)).mpr (by decide)


/-! ## Helper lemmas for the window and the copy loop -/

theorem handle_literal_codes_out (cs : List Nat) :
    ∀ st : DState, (handle_literal_codes st cs).out = st.out ++ cs := by
  induction cs with
  | nil => intro st; simp [handle_literal_codes]
  | cons b rest ih =>
    intro st
    simp only [handle_literal_codes, List.foldl_cons] at *
    rw [ih (emit_byte st b)]
    simp [emit_byte]

theorem emit_byte_pos_lt (st : DState) (b : Nat) :
    (emit_byte st b).back_refs_pos < 32768 := by
  simp only [emit_byte, MAX_DISTANCE]
  omega

theorem handle_literal_codes_frame (cs : List Nat) :
    ∀ (st : DState) (p : Nat), st.back_refs_pos < 32768 →
      (∀ j, j < cs.length → p ≠ (st.back_refs_pos + j) % 32768) →
      (handle_literal_codes st cs).back_refs p = st.back_refs p := by
  induction cs with
  | nil => intro st p _ _; rfl
  | cons b rest ih =>
    intro st p hpos h
    simp only [handle_literal_codes, List.foldl_cons] at *
    have hrest : ∀ j, j < rest.length →
        p ≠ ((emit_byte st b).back_refs_pos + j) % 32768 := by
      intro j hj
      have hj1 := h (j + 1) (by simp only [List.length_cons]; omega)
      simp only [emit_byte, MAX_DISTANCE]
      rw [Nat.mod_add_mod]
      intro he
      apply hj1
      rw [he]
      congr 1
      omega
    rw [ih (emit_byte st b) p (emit_byte_pos_lt st b) hrest]
    have hne : p ≠ st.back_refs_pos := by
      have h0 := h 0 (by simp only [List.length_cons]; omega)
      intro he
      apply h0
      rw [he]
      omega
    simp only [emit_byte]
    rw [if_neg hne]

theorem handle_literal_codes_window (cs : List Nat) :
    ∀ st : DState, st.back_refs_pos < 32768 → cs.length ≤ 32768 →
      ∀ i, i < cs.length →
        (handle_literal_codes st cs).back_refs ((st.back_refs_pos + i) % 32768)
          = cs.getD i 0 := by
  induction cs with
  | nil => intro st _ _ i hi; simp at hi
  | cons b rest ih =>
    intro st hpos hlen i hi
    simp only [handle_literal_codes, List.foldl_cons] at *
    cases i with
    | zero =>
      have hp0 : (st.back_refs_pos + 0) % 32768 = st.back_refs_pos := by omega
      rw [hp0]
      have hfr : ∀ j, j < rest.length →
          st.back_refs_pos ≠ ((emit_byte st b).back_refs_pos + j) % 32768 := by
        intro j hj
        simp only [emit_byte, MAX_DISTANCE]
        rw [Nat.mod_add_mod]
        simp only [List.length_cons] at hlen
        omega
      have hfrm := handle_literal_codes_frame rest (emit_byte st b) st.back_refs_pos
        (emit_byte_pos_lt st b) hfr
      simp only [handle_literal_codes] at hfrm
      rw [hfrm]
      simp [emit_byte]
    | succ i' =>
      have he : (st.back_refs_pos + (i' + 1)) % 32768 =
          ((emit_byte st b).back_refs_pos + i') % 32768 := by
        simp only [emit_byte, MAX_DISTANCE]
        rw [Nat.mod_add_mod]
        congr 1
        omega
      rw [he, ih (emit_byte st b) (emit_byte_pos_lt st b)
        (by simp only [List.length_cons] at hlen; omega) i'
        (by simp only [List.length_cons] at hi; omega)]
      simp

theorem getD_map_range (n : Nat) (f : Nat → Nat) (i : Nat) (h : i < n) :
    (((List.range n).map f).getD i 0) = f i := by
  rw [List.getD_eq_getElem _ _ (by simpa using h)]
  simp

theorem copyTempGo_closed (w : Nat → Nat) (stop start D : Nat)
    (hstart : start < 32768) (hD1 : 1 ≤ D) (hD2 : D ≤ 32768)
    (hstop : (start + D) % 32768 = stop) :
    ∀ k j, j < D →
      copyTempGo w stop start ((start + j) % 32768) k
        = (List.range k).map fun i => w ((start + (j + i) % D) % 32768) := by
  intro k
  induction k with
  | zero => intro j hj; simp [copyTempGo]
  | succ n ih =>
    intro j hj
    rw [List.range_succ_eq_map, List.map_cons, List.map_map]
    simp only [copyTempGo, MAX_DISTANCE, Nat.mod_add_mod]
    refine List.cons_eq_cons.mpr ⟨?_, ?_⟩
    · have hj0 : (j + 0) % D = j := by
        rw [Nat.add_zero]
        exact Nat.mod_eq_of_lt hj
      rw [hj0]
    · have hnext : (if (start + j + 1) % 32768 = stop then start
          else (start + j + 1) % 32768) = (start + (j + 1) % D) % 32768 := by
        by_cases hje : j + 1 = D
        · have harg : start + j + 1 = start + D := by omega
          rw [if_pos (by rw [harg, hstop])]
          have hz : (j + 1) % D = 0 := by
            rw [hje]
            exact Nat.mod_self D
          rw [hz]
          omega
        · have hlt : j + 1 < D := by omega
          have hcond : ¬ (start + j + 1) % 32768 = stop := by
            rw [← hstop]
            intro hcon
            omega
          rw [if_neg hcond]
          have hid : (j + 1) % D = j + 1 := Nat.mod_eq_of_lt hlt
          rw [hid]
          omega
      rw [hnext, ih ((j + 1) % D) (Nat.mod_lt _ (by omega))]
      apply List.map_congr_left
      intro x _
      simp only [Function.comp_apply, Nat.succ_eq_add_one]
      have harith : ((j + 1) % D + x) % D = (j + (x + 1)) % D := by
        rw [Nat.mod_add_mod]
        congr 1
        omega
      rw [harith]

theorem copyTemp_closed (w : Nat → Nat) (stop start D len : Nat)
    (hstart : start < 32768) (hD1 : 1 ≤ D) (hD2 : D ≤ 32768)
    (hstop : (start + D) % 32768 = stop) :
    copyTemp w stop start len = (List.range len).map fun i => w ((start + i % D) % 32768) := by
  have h := copyTempGo_closed w stop start D hstart hD1 hD2 hstop len 0 (by omega)
  have h0 : (start + 0) % 32768 = start := by omega
  rw [h0] at h
  unfold copyTemp
  rw [h]
  apply List.map_congr_left
  intro x _
  rw [Nat.zero_add]

/-! ## Claim C3 -/

/-- C3: right after a byte `b` has been emitted, a back-reference with
distance 1 and length `k` (`3 ≤ k ≤ 258`) succeeds and emits exactly `k`
copies of `b`, to the output sink and to the window; more generally the
bytes collected by the copy loop satisfy the byte-by-byte recurrence
`bytes[i] = bytes[i - d]` for `d ≤ i`, so a byte emitted earlier in the
same copy is the source of the byte `d` positions later. -/
theorem C3_self_referential_runs (st0 : DState) (b k : Nat)
    (hk1 : 3 ≤ k) (hk2 : k ≤ 258) (hpos : st0.back_refs_pos < 32768) :
    ((copy_bytes_from_distance (emit_byte st0 b) k 1).1 = true ∧
      (copy_bytes_from_distance (emit_byte st0 b) k 1).2.out
        = (emit_byte st0 b).out ++ List.replicate k b ∧
      ∀ i, i < k →
        (copy_bytes_from_distance (emit_byte st0 b) k 1).2.back_refs
            (((emit_byte st0 b).back_refs_pos + i) % MAX_DISTANCE) = b) ∧
    (∀ (st : DState) (d len : Nat), 1 ≤ d → d ≤ 32768 → st.back_refs_pos < 32768 →
      ∀ i, d ≤ i → i < len →
        (copyTemp st.back_refs st.back_refs_pos
            ((st.back_refs_pos + MAX_DISTANCE - d) % MAX_DISTANCE) len).getD i 0
          = (copyTemp st.back_refs st.back_refs_pos
              ((st.back_refs_pos + MAX_DISTANCE - d) % MAX_DISTANCE) len).getD (i - d) 0) := by
  constructor
  · set st := emit_byte st0 b with hst
    have hpos' : st.back_refs_pos < 32768 := emit_byte_pos_lt st0 b
    have hspos : st.back_refs_pos = (st0.back_refs_pos + 1) % 32768 := by
      rw [hst]; simp [emit_byte, MAX_DISTANCE]
    have hstart1 : (st.back_refs_pos + MAX_DISTANCE - 1) % MAX_DISTANCE
        = st0.back_refs_pos := by
      rw [hspos]
      simp only [MAX_DISTANCE]
      omega
    have hcond : ¬ (st.back_refs_filled = false ∧
        st.back_refs_pos ≤ (st.back_refs_pos + MAX_DISTANCE - 1) % MAX_DISTANCE) := by
      rw [hstart1]
      rintro ⟨hf, hle⟩
      rw [hst] at hf
      simp only [emit_byte, MAX_DISTANCE, Bool.or_eq_false_iff,
        decide_eq_false_iff_not] at hf
      rw [hspos] at hle
      omega
    have hupd : st.back_refs st0.back_refs_pos = b := by
      rw [hst]; simp [emit_byte]
    have hcopy : copyTemp st.back_refs st.back_refs_pos
        ((st.back_refs_pos + MAX_DISTANCE - 1) % MAX_DISTANCE) k
          = List.replicate k b := by
      rw [hstart1]
      rw [copyTemp_closed st.back_refs st.back_refs_pos st0.back_refs_pos 1 k hpos
        (by omega) (by omega) hspos.symm]
      have hconst : ∀ i, st.back_refs ((st0.back_refs_pos + i % 1) % 32768) = b := by
        intro i
        have hi1 : (st0.back_refs_pos + i % 1) % 32768 = st0.back_refs_pos := by omega
        rw [hi1, hupd]
      rw [List.map_congr_left fun x _ => hconst x]
      simp [List.map_const']
    unfold copy_bytes_from_distance
    dsimp only []
    rw [if_neg hcond, hcopy]
    refine ⟨rfl, handle_literal_codes_out _ st, ?_⟩
    intro i hik
    have hw := handle_literal_codes_window (List.replicate k b) st hpos'
      (by simp only [List.length_replicate]; omega) i
      (by simp only [List.length_replicate]; omega)
    simp only [MAX_DISTANCE]
    rw [hw]
    rw [List.getD_eq_getElem _ _ (by simp only [List.length_replicate]; omega)]
    simp
  · intro st d len hd1 hd2 hp i hdi hilen
    have hstart_lt : (st.back_refs_pos + MAX_DISTANCE - d) % MAX_DISTANCE < 32768 := by
      simp only [MAX_DISTANCE]
      omega
    have hstop : (((st.back_refs_pos + MAX_DISTANCE - d) % MAX_DISTANCE) + d) % 32768
        = st.back_refs_pos := by
      simp only [MAX_DISTANCE]
      omega
    rw [copyTemp_closed st.back_refs st.back_refs_pos _ d len hstart_lt hd1 hd2 hstop]
    rw [getD_map_range len _ i hilen, getD_map_range len _ (i - d) (by omega)]
    rw [Nat.mod_eq_sub_mod hdi]

theorem C3_self_referential_runs_w :
    (copy_bytes_from_distance (emit_byte ⟨⟨[], 0, 0⟩, fun _ => 0, 0, false, []⟩ 7) 3 1).1
      = true ∧
    (copy_bytes_from_distance (emit_byte ⟨⟨[], 0, 0⟩, fun _ => 0, 0, false, []⟩ 7) 3 1).2.out
      = (emit_byte (⟨⟨[], 0, 0⟩, fun _ => 0, 0, false, []⟩ : DState) 7).out
          ++ List.replicate 3 7 := by
  have h := (C3_self_referential_runs ⟨⟨[], 0, 0⟩, fun _ => 0, 0, false, []⟩ 7 3
    (by omega) (by omega) (by decide)).1
  exact ⟨h.1, h.2.1⟩

/-! ## Claim C1 -/

/-- C1 counterexample: the 5-bit input sequence 1,0,0,0,0 (byte 0x01) read
by `read_bits` yields value 1, while decoding the same bits MSB-first
through the canonical tree built from 30 code lengths 5 yields symbol 16:
the two decodings do not agree on the symbol index. -/
theorem C1_fixed_distance_same_symbol_cex :
    read_bits 5 ⟨[1], 0, 0⟩ = some (1, ⟨[1], 0, 5⟩) ∧
    (create_huffman_tree (List.replicate 30 5) 15).bind
        (fun t => find_huffman_code t ⟨[1], 0, 0⟩) = some (16, ⟨[1], 0, 5⟩) ∧
    (1 : Nat) ≠ 16 := by decide

/-- C1 (amended): for every 5-bit sequence, reading it with `read_bits`
(first bit consumed = LSB) and decoding it MSB-first through the canonical
Huffman tree built from 30 code lengths all equal to 5 consume the same
bits and produce symbol indices that are 5-bit reversals of each other
(they agree only on palindromic sequences, not in general). -/
theorem C1_fixed_distance_bit_reversal (t : Trie) (c c1 c2 : Cursor) (v s : Nat)
    (ht : create_huffman_tree (List.replicate 30 5) 15 = some t)
    (hv : read_bits 5 c = some (v, c1))
    (hs : find_huffman_code t c = some (s, c2)) :
    c2 = c1 ∧ s = rev5 v ∧ v = rev5 s := by
  have hlit : create_huffman_tree (List.replicate 30 5) 15 = some fixedDistTreeLit := by
    decide
  rw [ht] at hlit
  injection hlit with hteq
  subst hteq
  rcases h0 : read_bit1 c with _ | ⟨b0, d1⟩
  · simp only [read_bits, read_bits_go, h0] at hv
    exact Option.noConfusion hv
  rcases h1 : read_bit1 d1 with _ | ⟨b1, d2⟩
  · simp only [read_bits, read_bits_go, h0, h1] at hv
    exact Option.noConfusion hv
  rcases h2 : read_bit1 d2 with _ | ⟨b2, d3⟩
  · simp only [read_bits, read_bits_go, h0, h1, h2] at hv
    exact Option.noConfusion hv
  rcases h3 : read_bit1 d3 with _ | ⟨b3, d4⟩
  · simp only [read_bits, read_bits_go, h0, h1, h2, h3] at hv
    exact Option.noConfusion hv
  rcases h4 : read_bit1 d4 with _ | ⟨b4, d5⟩
  · simp only [read_bits, read_bits_go, h0, h1, h2, h3, h4] at hv
    exact Option.noConfusion hv
  cases b0 <;> cases b1 <;> cases b2 <;> cases b3 <;> cases b4 <;>
    simp only [read_bits, read_bits_go, find_huffman_code, fixedDistTreeLit,
      h0, h1, h2, h3, h4, Option.some.injEq, Prod.mk.injEq] at hv hs <;>
    (try exact Option.noConfusion hs) <;>
    (obtain ⟨hv1, hv2⟩ := hv
     obtain ⟨hs1, hs2⟩ := hs
     subst hv1
     subst hv2
     subst hs1
     subst hs2
     exact ⟨rfl, by decide, by decide⟩)

theorem C1_fixed_distance_bit_reversal_w :
    (⟨[1], 0, 5⟩ : Cursor) = ⟨[1], 0, 5⟩ ∧ (16 : Nat) = rev5 1 ∧ (1 : Nat) = rev5 16 :=
  C1_fixed_distance_bit_reversal fixedDistTreeLit ⟨[1], 0, 0⟩ ⟨[1], 0, 5⟩ ⟨[1], 0, 5⟩ 1 16
    (by decide) (by decide) (by decide)

/-! ## Claim C8 -/

/-- C8: on the fixed-Huffman literal/length code-length vector with limit
15, `generate_huffman_codes` succeeds, and the eight boundary symbols of
RFC 1951 §3.2.6 receive exactly the expected canonical codes
(bit strings written MSB first, `true` = '1'). -/
theorem C8_fixed_table_codes :
    generate_huffman_codes fixed_ll_lengths 15 = some (assignAll fixed_ll_lengths) ∧
    (assignAll fixed_ll_lengths).getD 0 (0, [])
      = (8, [false, false, true, true, false, false, false, false]) ∧
    (assignAll fixed_ll_lengths).getD 143 (0, [])
      = (8, [true, false, true, true, true, true, true, true]) ∧
    (assignAll fixed_ll_lengths).getD 144 (0, [])
      = (9, [true, true, false, false, true, false, false, false, false]) ∧
    (assignAll fixed_ll_lengths).getD 255 (0, [])
      = (9, [true, true, true, true, true, true, true, true, true]) ∧
    (assignAll fixed_ll_lengths).getD 256 (0, [])
      = (7, [false, false, false, false, false, false, false]) ∧
    (assignAll fixed_ll_lengths).getD 279 (0, [])
      = (7, [false, false, true, false, true, true, true]) ∧
    (assignAll fixed_ll_lengths).getD 280 (0, [])
      = (8, [true, true, false, false, false, false, false, false]) ∧
    (assignAll fixed_ll_lengths).getD 287 (0, [])
      = (8, [true, true, false, false, false, true, true, true]) := by
  set_option maxRecDepth 8000 in decide

/-! ## Claim C7: lemmas about the repeat loop and the sequence decoder -/

theorem clRepeat_some (v total : Nat) :
    ∀ n acc, acc.length + n ≤ total →
      clRepeat v total acc n = some (acc ++ List.replicate n v) := by
  intro n
  induction n with
  | zero => intro acc h; simp [clRepeat]
  | succ m ih =>
    intro acc h
    simp only [clRepeat]
    rw [if_neg (by omega)]
    have hlen : (acc ++ [v]).length + m ≤ total := by
      simp only [List.length_append, List.length_cons, List.length_nil]
      omega
    rw [ih (acc ++ [v]) hlen]
    simp [List.replicate_succ, List.append_assoc]

theorem clRepeat_none (v total : Nat) :
    ∀ n acc, 1 ≤ n → total < acc.length + n → clRepeat v total acc n = none := by
  intro n
  induction n with
  | zero => intro acc h1 h2; omega
  | succ m ih =>
    intro acc h1 h2
    simp only [clRepeat]
    by_cases hl : total ≤ acc.length
    · rw [if_pos hl]
    · rw [if_neg hl]
      cases m with
      | zero => omega
      | succ m' =>
        have hlen : total < (acc ++ [v]).length + (m' + 1) := by
          simp only [List.length_append, List.length_cons, List.length_nil]
          omega
        exact ih (acc ++ [v]) (by omega) hlen

theorem clRepeat_length (v total : Nat) :
    ∀ n acc acc', clRepeat v total acc n = some acc' → acc'.length = acc.length + n := by
  intro n
  induction n with
  | zero =>
    intro acc acc' h
    simp only [clRepeat, Option.some.injEq] at h
    subst h
    rfl
  | succ m ih =>
    intro acc acc' h
    simp only [clRepeat] at h
    by_cases hl : total ≤ acc.length
    · rw [if_pos hl] at h
      cases h
    · rw [if_neg hl] at h
      have := ih (acc ++ [v]) acc' h
      simp only [List.length_append, List.length_cons, List.length_nil] at this
      omega

theorem cl_decode_loop_length (t : Trie) (total : Nat) :
    ∀ (k : Nat) (cur : Cursor) (prev : Nat) (acc : List Nat),
      total - acc.length ≤ k → acc.length ≤ total →
      ∀ out cur', cl_decode_loop t total cur prev acc = some (out, cur') →
        out.length = total := by
  intro k
  induction k with
  | zero =>
    intro cur prev acc hk hle out cur' h
    rw [cl_decode_loop.eq_def] at h
    dsimp only [] at h
    rw [dif_pos (by omega)] at h
    simp only [Option.some.injEq, Prod.mk.injEq] at h
    rw [← h.1]
    omega
  | succ k ih =>
    intro cur prev acc hk hle out cur' h
    by_cases hd : total ≤ acc.length
    · rw [cl_decode_loop.eq_def] at h
      dsimp only [] at h
      rw [dif_pos hd] at h
      simp only [Option.some.injEq, Prod.mk.injEq] at h
      rw [← h.1]
      omega
    · rw [cl_decode_loop.eq_def] at h
      dsimp only [] at h
      rw [dif_neg hd] at h
      cases hf : find_huffman_code t cur with
      | none => rw [hf] at h; cases h
      | some p =>
        obtain ⟨code, cur1⟩ := p
        rw [hf] at h
        dsimp only [] at h
        by_cases h18 : 18 < code
        · rw [if_pos h18] at h; cases h
        · rw [if_neg h18] at h
          by_cases h16z : code = 16 ∧ acc.length = 0
          · rw [if_pos h16z] at h; cases h
          · rw [if_neg h16z] at h
            by_cases h15 : code ≤ 15
            · rw [dif_pos h15] at h
              have hla : (acc ++ [code]).length = acc.length + 1 := by simp
              exact ih cur1 code (acc ++ [code]) (by omega) (by omega) out cur' h
            · rw [dif_neg h15] at h
              by_cases h16 : code = 16
              · rw [if_pos h16] at h
                cases hr : read_bits 2 cur1 with
                | none => rw [hr] at h; cases h
                | some q =>
                  obtain ⟨e, cur2⟩ := q
                  rw [hr] at h
                  dsimp only [] at h
                  cases hrep : clRepeat prev total acc (e + 3) with
                  | none => rw [hrep] at h; cases h
                  | some acc' =>
                    rw [hrep] at h
                    dsimp only [] at h
                    have hal := clRepeat_length prev total (e + 3) acc acc' hrep
                    have hub : acc.length + (e + 3) ≤ total := by
                      by_contra hcon
                      rw [clRepeat_none prev total (e + 3) acc (by omega) (by omega)] at hrep
                      cases hrep
                    exact ih cur2 prev acc' (by omega) (by omega) out cur' h
              · rw [if_neg h16] at h
                cases hr : read_bits (if code = 17 then 3 else 7) cur1 with
                | none => rw [hr] at h; cases h
                | some q =>
                  obtain ⟨e, cur2⟩ := q
                  rw [hr] at h
                  dsimp only [] at h
                  cases hrep : clRepeat 0 total acc (e + (if code = 17 then 3 else 11)) with
                  | none => rw [hrep] at h; cases h
                  | some acc' =>
                    rw [hrep] at h
                    dsimp only [] at h
                    have hal := clRepeat_length 0 total
                      (e + (if code = 17 then 3 else 11)) acc acc' hrep
                    have hplus : 3 ≤ e + (if code = 17 then 3 else 11) := by
                      by_cases hc17 : code = 17 <;> simp [hc17] <;> omega
                    have hub : acc.length + (e + (if code = 17 then 3 else 11)) ≤ total := by
                      by_contra hcon
                      rw [clRepeat_none 0 total (e + (if code = 17 then 3 else 11)) acc
                        (by omega) (by omega)] at hrep
                      cases hrep
                    exact ih cur2 0 acc' (by omega) (by omega) out cur' h

/-- C7: in the dynamic-block code-length sequence decoder, a decoded
repeat symbol 16 reads 2 extra bits giving a repeat count `n = e + 3` in
`3..6` and appends the previous code length `n` times; it fails when it is
the first symbol (no length emitted yet), any repeat symbol 16/17/18 whose
expansion would push the count past `total` fails, and a successful run
produces exactly `total` code lengths. -/
theorem C7_code_length_repeat_16 (t : Trie) (cur : Cursor) (prev : Nat)
    (acc : List Nat) (total : Nat) (hcnt : acc.length < total) :
    (∀ cur1, find_huffman_code t cur = some (16, cur1) → acc = [] →
      cl_decode_loop t total cur prev acc = none) ∧
    (∀ cur1 e cur2, find_huffman_code t cur = some (16, cur1) → acc ≠ [] →
      read_bits 2 cur1 = some (e, cur2) →
      (3 ≤ e + 3 ∧ e + 3 ≤ 6) ∧
      (acc.length + (e + 3) ≤ total →
        cl_decode_loop t total cur prev acc
          = cl_decode_loop t total cur2 prev (acc ++ List.replicate (e + 3) prev)) ∧
      (total < acc.length + (e + 3) →
        cl_decode_loop t total cur prev acc = none)) ∧
    (∀ code cur1 e cur2, code = 17 ∨ code = 18 →
      find_huffman_code t cur = some (code, cur1) →
      read_bits (if code = 17 then 3 else 7) cur1 = some (e, cur2) →
      total < acc.length + (e + (if code = 17 then 3 else 11)) →
      cl_decode_loop t total cur prev acc = none) ∧
    (∀ out cur', cl_decode_loop t total cur prev acc = some (out, cur') →
      out.length = total) := by
  refine ⟨?_, ?_, ?_, ?_⟩
  · intro cur1 hf hacc
    subst hacc
    rw [cl_decode_loop.eq_def]
    dsimp only []
    rw [dif_neg (by simp only [List.length_nil]; omega), hf]
    dsimp only []
    norm_num
  · intro cur1 e cur2 hf hne hr
    have he4 : e < 4 := read_bits_lt 2 cur1 e cur2 hr
    have hlz : ¬ acc.length = 0 := by simpa [List.length_eq_zero] using hne
    refine ⟨⟨by omega, by omega⟩, ?_, ?_⟩
    · intro hfit
      conv_lhs => rw [cl_decode_loop.eq_def]
      dsimp only []
      rw [dif_neg (by omega), hf]
      dsimp only []
      rw [if_neg (by omega), if_neg (by simp [hlz]), dif_neg (by omega),
        if_pos rfl, hr]
      dsimp only []
      rw [clRepeat_some prev total (e + 3) acc (by omega)]
    · intro hover
      rw [cl_decode_loop.eq_def]
      dsimp only []
      rw [dif_neg (by omega), hf]
      dsimp only []
      rw [if_neg (by omega), if_neg (by simp [hlz]), dif_neg (by omega),
        if_pos rfl, hr]
      dsimp only []
      rw [clRepeat_none prev total (e + 3) acc (by omega) (by omega)]
  · intro code cur1 e cur2 hcode hf hr hover
    have hc1 : 17 ≤ code ∧ code ≤ 18 := by
      rcases hcode with rfl | rfl <;> omega
    have hplus : 3 ≤ (if code = 17 then 3 else 11) ∧ (if code = 17 then 3 else 11) ≤ 11 := by
      rcases hcode with rfl | rfl <;> norm_num
    rw [cl_decode_loop.eq_def]
    dsimp only []
    rw [dif_neg (by omega), hf]
    dsimp only []
    rw [if_neg (by omega), if_neg (by omega), dif_neg (by omega),
      if_neg (by omega), hr]
    dsimp only []
    rw [clRepeat_none 0 total (e + (if code = 17 then 3 else 11)) acc
      (by omega) (by omega)]
  · intro out cur' h
    exact cl_decode_loop_length t total (total - acc.length) cur prev acc le_rfl
      (by omega) out cur' h

theorem C7_code_length_repeat_16_w :
    cl_decode_loop (.tnode (.tleaf 16) (.tleaf 0)) 1 ⟨[0], 0, 0⟩ 5 [] = none :=
  (C7_code_length_repeat_16 (.tnode (.tleaf 16) (.tleaf 0)) ⟨[0], 0, 0⟩ 5 [] 1
    (by decide)).1 ⟨[0], 0, 1⟩ (by decide) rfl

/-! ## Claim C5: the trie insertion characterization -/

theorem mem_tpaths_hasLeaf : ∀ (t : Trie) (q : List Bool), q ∈ tpaths t → hasLeaf t = true := by
  intro t
  induction t with
  | tnil => intro q hq; simp [tpaths] at hq
  | tleaf s => intro q hq; rfl
  | tnode l r ihl ihr =>
    intro q hq
    simp only [tpaths, List.mem_append, List.mem_map] at hq
    simp only [hasLeaf, Bool.or_eq_true]
    rcases hq with ⟨q0, hq0, _⟩ | ⟨q0, hq0, _⟩
    · exact Or.inl (ihl q0 hq0)
    · exact Or.inr (ihr q0 hq0)

theorem hasLeaf_exists_path : ∀ (t : Trie), hasLeaf t = true → ∃ q, q ∈ tpaths t := by
  intro t
  induction t with
  | tnil => intro h; cases h
  | tleaf s => intro _; exact ⟨[], by simp [tpaths]⟩
  | tnode l r ihl ihr =>
    intro h
    simp only [hasLeaf, Bool.or_eq_true] at h
    rcases h with h | h
    · obtain ⟨q, hq⟩ := ihl h
      refine ⟨false :: q, ?_⟩
      simp only [tpaths]
      exact List.mem_append_left _ (List.mem_map_of_mem _ hq)
    · obtain ⟨q, hq⟩ := ihr h
      refine ⟨true :: q, ?_⟩
      simp only [tpaths]
      exact List.mem_append_right _ (List.mem_map_of_mem _ hq)

theorem pconfB_cons (a : Bool) (p q : List Bool) :
    pconfB (a :: p) (a :: q) = pconfB p q := by
  simp [pconfB, leadsB]

theorem pconfB_comm (p q : List Bool) : pconfB p q = pconfB q p := by
  simp [pconfB, Bool.or_comm]

theorem mem_tpaths_node (l r : Trie) (q : List Bool) :
    q ∈ tpaths (.tnode l r) ↔
      (∃ q0, q0 ∈ tpaths l ∧ q = false :: q0) ∨ (∃ q0, q0 ∈ tpaths r ∧ q = true :: q0) := by
  simp [tpaths, eq_comm]


theorem insertC_last_left_nil (r : Trie) (s : Nat) :
    insertC (.tnode .tnil r) [false] s = some (.tnode (.tleaf s) r) := rfl

theorem insertC_last_right_nil (l : Trie) (s : Nat) :
    insertC (.tnode l .tnil) [true] s = some (.tnode l (.tleaf s)) := rfl

theorem insertC_step_left_nil (r : Trie) (s : Nat) (y : Bool) (p : List Bool) :
    insertC (.tnode .tnil r) (false :: y :: p) s =
      (match insertC (.tnode .tnil .tnil) (y :: p) s with
        | none => none
        | some t' => some (.tnode t' r)) := rfl

theorem insertC_step_right_nil (l : Trie) (s : Nat) (y : Bool) (p : List Bool) :
    insertC (.tnode l .tnil) (true :: y :: p) s =
      (match insertC (.tnode .tnil .tnil) (y :: p) s with
        | none => none
        | some t' => some (.tnode l t')) := rfl

theorem insertC_step_left_node (lc rc r : Trie) (s : Nat) (y : Bool) (p : List Bool) :
    insertC (.tnode (.tnode lc rc) r) (false :: y :: p) s =
      (match insertC (.tnode lc rc) (y :: p) s with
        | none => none
        | some t' => some (.tnode t' r)) := rfl

theorem insertC_step_right_node (l lc rc : Trie) (s : Nat) (y : Bool) (p : List Bool) :
    insertC (.tnode l (.tnode lc rc)) (true :: y :: p) s =
      (match insertC (.tnode lc rc) (y :: p) s with
        | none => none
        | some t' => some (.tnode l t')) := rfl

theorem insertC_some (p : List Bool) : ∀ (l r : Trie) (s : Nat), p ≠ [] →
    WF (.tnode l r) → (∀ q ∈ tpaths (.tnode l r), pconfB p q = false) →
    ∃ t', insertC (.tnode l r) p s = some t' ∧ WF t' ∧ hasLeaf t' = true ∧
      (∃ l' r', t' = .tnode l' r') ∧
      (∀ q, q ∈ tpaths t' ↔ q ∈ tpaths (.tnode l r) ∨ q = p) := by
  induction p with
  | nil => intro l r s hp _ _; exact absurd rfl hp
  | cons b p' ih =>
    intro l r s _ hwf hconf
    obtain ⟨hwl, hwr, hal, har⟩ := hwf
    by_cases hp' : p' = []
    · subst hp'
      cases b
      · cases l with
        | tleaf s0 =>
          exfalso
          have hmem : [false] ∈ tpaths (.tnode (.tleaf s0) r) := by
            rw [mem_tpaths_node]
            exact Or.inl ⟨[], by simp [tpaths], rfl⟩
          have := hconf [false] hmem
          simp [pconfB, leadsB] at this
        | tnode lc rc =>
          exfalso
          have hhl : hasLeaf (Trie.tnode lc rc) = true := by
            rcases hal with h | h
            · cases h
            · exact h
          obtain ⟨q0, hq0⟩ := hasLeaf_exists_path _ hhl
          have hmem : false :: q0 ∈ tpaths (.tnode (.tnode lc rc) r) := by
            rw [mem_tpaths_node]
            exact Or.inl ⟨q0, hq0, rfl⟩
          have := hconf (false :: q0) hmem
          simp [pconfB, leadsB] at this
        | tnil =>
          refine ⟨.tnode (.tleaf s) r, insertC_last_left_nil r s,
            ⟨trivial, hwr, Or.inr rfl, har⟩, by simp [hasLeaf], ⟨_, _, rfl⟩, ?_⟩
          intro q
          rw [mem_tpaths_node, mem_tpaths_node]
          constructor
          · rintro (⟨q0, hq0, rfl⟩ | ⟨q0, hq0, rfl⟩)
            · simp [tpaths] at hq0
              subst hq0
              exact Or.inr rfl
            · exact Or.inl (Or.inr ⟨q0, hq0, rfl⟩)
          · rintro ((⟨q0, hq0, rfl⟩ | ⟨q0, hq0, rfl⟩) | rfl)
            · simp [tpaths] at hq0
            · exact Or.inr ⟨q0, hq0, rfl⟩
            · exact Or.inl ⟨[], by simp [tpaths], rfl⟩
      · cases r with
        | tleaf s0 =>
          exfalso
          have hmem : [true] ∈ tpaths (.tnode l (.tleaf s0)) := by
            rw [mem_tpaths_node]
            exact Or.inr ⟨[], by simp [tpaths], rfl⟩
          have := hconf [true] hmem
          simp [pconfB, leadsB] at this
        | tnode lc rc =>
          exfalso
          have hhr : hasLeaf (Trie.tnode lc rc) = true := by
            rcases har with h | h
            · cases h
            · exact h
          obtain ⟨q0, hq0⟩ := hasLeaf_exists_path _ hhr
          have hmem : true :: q0 ∈ tpaths (.tnode l (.tnode lc rc)) := by
            rw [mem_tpaths_node]
            exact Or.inr ⟨q0, hq0, rfl⟩
          have := hconf (true :: q0) hmem
          simp [pconfB, leadsB] at this
        | tnil =>
          refine ⟨.tnode l (.tleaf s), insertC_last_right_nil l s,
            ⟨hwl, trivial, hal, Or.inr rfl⟩, by simp [hasLeaf], ⟨_, _, rfl⟩, ?_⟩
          intro q
          rw [mem_tpaths_node, mem_tpaths_node]
          constructor
          · rintro (⟨q0, hq0, rfl⟩ | ⟨q0, hq0, rfl⟩)
            · exact Or.inl (Or.inl ⟨q0, hq0, rfl⟩)
            · simp [tpaths] at hq0
              subst hq0
              exact Or.inr rfl
          · rintro ((⟨q0, hq0, rfl⟩ | ⟨q0, hq0, rfl⟩) | rfl)
            · exact Or.inl ⟨q0, hq0, rfl⟩
            · simp [tpaths] at hq0
            · exact Or.inr ⟨[], by simp [tpaths], rfl⟩
    · obtain ⟨y, p'', rfl⟩ := List.exists_cons_of_ne_nil hp'
      cases b
      · cases l with
        | tleaf s0 =>
          exfalso
          have hmem : [false] ∈ tpaths (.tnode (.tleaf s0) r) := by
            rw [mem_tpaths_node]
            exact Or.inl ⟨[], by simp [tpaths], rfl⟩
          have := hconf [false] hmem
          simp [pconfB, leadsB] at this
        | tnil =>
          have hsub := ih .tnil .tnil s (by simp)
            ⟨trivial, trivial, Or.inl rfl, Or.inl rfl⟩
            (by intro q hq; simp [tpaths] at hq)
          obtain ⟨t'', hins, hwf'', hleaf'', ⟨l'', r'', ht''⟩, hmem''⟩ := hsub
          refine ⟨.tnode t'' r, ?_, ⟨hwf'', hwr, Or.inr hleaf'', har⟩,
            by simp [hasLeaf, hleaf''], ⟨_, _, rfl⟩, ?_⟩
          · rw [insertC_step_left_nil, hins]
          · intro q
            rw [mem_tpaths_node, mem_tpaths_node]
            constructor
            · rintro (⟨q0, hq0, rfl⟩ | ⟨q0, hq0, rfl⟩)
              · rcases (hmem'' q0).mp hq0 with h | rfl
                · simp [tpaths] at h
                · exact Or.inr rfl
              · exact Or.inl (Or.inr ⟨q0, hq0, rfl⟩)
            · rintro ((⟨q0, hq0, rfl⟩ | ⟨q0, hq0, rfl⟩) | rfl)
              · simp [tpaths] at hq0
              · exact Or.inr ⟨q0, hq0, rfl⟩
              · exact Or.inl ⟨y :: p'', (hmem'' _).mpr (Or.inr rfl), rfl⟩
        | tnode lc rc =>
          have hconf' : ∀ q0 ∈ tpaths (.tnode lc rc), pconfB (y :: p'') q0 = false := by
            intro q0 hq0
            have hmem : false :: q0 ∈ tpaths (.tnode (.tnode lc rc) r) := by
              rw [mem_tpaths_node]
              exact Or.inl ⟨q0, hq0, rfl⟩
            have := hconf (false :: q0) hmem
            rwa [pconfB_cons] at this
          have hsub := ih lc rc s (by simp) hwl hconf'
          obtain ⟨t'', hins, hwf'', hleaf'', ⟨l'', r'', ht''⟩, hmem''⟩ := hsub
          refine ⟨.tnode t'' r, ?_, ⟨hwf'', hwr, Or.inr hleaf'', har⟩,
            by simp [hasLeaf, hleaf''], ⟨_, _, rfl⟩, ?_⟩
          · rw [insertC_step_left_node, hins]
          · intro q
            rw [mem_tpaths_node, mem_tpaths_node]
            constructor
            · rintro (⟨q0, hq0, rfl⟩ | ⟨q0, hq0, rfl⟩)
              · rcases (hmem'' q0).mp hq0 with h | rfl
                · exact Or.inl (Or.inl ⟨q0, h, rfl⟩)
                · exact Or.inr rfl
              · exact Or.inl (Or.inr ⟨q0, hq0, rfl⟩)
            · rintro ((⟨q0, hq0, rfl⟩ | ⟨q0, hq0, rfl⟩) | rfl)
              · exact Or.inl ⟨q0, (hmem'' q0).mpr (Or.inl hq0), rfl⟩
              · exact Or.inr ⟨q0, hq0, rfl⟩
              · exact Or.inl ⟨y :: p'', (hmem'' _).mpr (Or.inr rfl), rfl⟩
      · cases r with
        | tleaf s0 =>
          exfalso
          have hmem : [true] ∈ tpaths (.tnode l (.tleaf s0)) := by
            rw [mem_tpaths_node]
            exact Or.inr ⟨[], by simp [tpaths], rfl⟩
          have := hconf [true] hmem
          simp [pconfB, leadsB] at this
        | tnil =>
          have hsub := ih .tnil .tnil s (by simp)
            ⟨trivial, trivial, Or.inl rfl, Or.inl rfl⟩
            (by intro q hq; simp [tpaths] at hq)
          obtain ⟨t'', hins, hwf'', hleaf'', ⟨l'', r'', ht''⟩, hmem''⟩ := hsub
          refine ⟨.tnode l t'', ?_, ⟨hwl, hwf'', hal, Or.inr hleaf''⟩,
            by simp [hasLeaf, hleaf''], ⟨_, _, rfl⟩, ?_⟩
          · rw [insertC_step_right_nil, hins]
          · intro q
            rw [mem_tpaths_node, mem_tpaths_node]
            constructor
            · rintro (⟨q0, hq0, rfl⟩ | ⟨q0, hq0, rfl⟩)
              · exact Or.inl (Or.inl ⟨q0, hq0, rfl⟩)
              · rcases (hmem'' q0).mp hq0 with h | rfl
                · simp [tpaths] at h
                · exact Or.inr rfl
            · rintro ((⟨q0, hq0, rfl⟩ | ⟨q0, hq0, rfl⟩) | rfl)
              · exact Or.inl ⟨q0, hq0, rfl⟩
              · simp [tpaths] at hq0
              · exact Or.inr ⟨y :: p'', (hmem'' _).mpr (Or.inr rfl), rfl⟩
        | tnode lc rc =>
          have hconf' : ∀ q0 ∈ tpaths (.tnode lc rc), pconfB (y :: p'') q0 = false := by
            intro q0 hq0
            have hmem : true :: q0 ∈ tpaths (.tnode l (.tnode lc rc)) := by
              rw [mem_tpaths_node]
              exact Or.inr ⟨q0, hq0, rfl⟩
            have := hconf (true :: q0) hmem
            rwa [pconfB_cons] at this
          have hsub := ih lc rc s (by simp) hwr hconf'
          obtain ⟨t'', hins, hwf'', hleaf'', ⟨l'', r'', ht''⟩, hmem''⟩ := hsub
          refine ⟨.tnode l t'', ?_, ⟨hwl, hwf'', hal, Or.inr hleaf''⟩,
            by simp [hasLeaf, hleaf''], ⟨_, _, rfl⟩, ?_⟩
          · rw [insertC_step_right_node, hins]
          · intro q
            rw [mem_tpaths_node, mem_tpaths_node]
            constructor
            · rintro (⟨q0, hq0, rfl⟩ | ⟨q0, hq0, rfl⟩)
              · exact Or.inl (Or.inl ⟨q0, hq0, rfl⟩)
              · rcases (hmem'' q0).mp hq0 with h | rfl
                · exact Or.inl (Or.inr ⟨q0, h, rfl⟩)
                · exact Or.inr rfl
            · rintro ((⟨q0, hq0, rfl⟩ | ⟨q0, hq0, rfl⟩) | rfl)
              · exact Or.inl ⟨q0, hq0, rfl⟩
              · exact Or.inr ⟨q0, (hmem'' q0).mpr (Or.inl hq0), rfl⟩
              · exact Or.inr ⟨y :: p'', (hmem'' _).mpr (Or.inr rfl), rfl⟩

theorem insertC_last_left_leaf (s0 : Nat) (r : Trie) (s : Nat) :
    insertC (.tnode (.tleaf s0) r) [false] s = none := rfl

theorem insertC_last_left_node (lc rc r : Trie) (s : Nat) :
    insertC (.tnode (.tnode lc rc) r) [false] s = none := rfl

theorem insertC_last_right_leaf (l : Trie) (s0 : Nat) (s : Nat) :
    insertC (.tnode l (.tleaf s0)) [true] s = none := rfl

theorem insertC_last_right_node (l lc rc : Trie) (s : Nat) :
    insertC (.tnode l (.tnode lc rc)) [true] s = none := rfl

theorem insertC_step_left_leaf (s0 : Nat) (r : Trie) (s : Nat) (y : Bool) (p : List Bool) :
    insertC (.tnode (.tleaf s0) r) (false :: y :: p) s = none := rfl

theorem insertC_step_right_leaf (l : Trie) (s0 : Nat) (s : Nat) (y : Bool) (p : List Bool) :
    insertC (.tnode l (.tleaf s0)) (true :: y :: p) s = none := rfl

theorem pconfB_true_head (a c : Bool) (p q : List Bool)
    (h : pconfB (a :: p) (c :: q) = true) : a = c := by
  simp only [pconfB, leadsB, Bool.or_eq_true, Bool.and_eq_true, beq_iff_eq] at h
  rcases h with ⟨h, _⟩ | ⟨h, _⟩
  · exact h
  · exact h.symm

theorem insertC_conflict_none (p : List Bool) : ∀ (l r : Trie) (s : Nat), p ≠ [] →
    WF (.tnode l r) → (∃ q ∈ tpaths (.tnode l r), pconfB p q = true) →
    insertC (.tnode l r) p s = none := by
  induction p with
  | nil => intro l r s hp _ _; exact absurd rfl hp
  | cons b p' ih =>
    intro l r s _ hwf hconf
    obtain ⟨hwl, hwr, hal, har⟩ := hwf
    obtain ⟨q, hqmem, hqconf⟩ := hconf
    rw [mem_tpaths_node] at hqmem
    rcases hqmem with ⟨q0, hq0, rfl⟩ | ⟨q0, hq0, rfl⟩
    · obtain rfl : b = false := pconfB_true_head _ _ _ _ hqconf
      cases p' with
      | nil =>
        cases l with
        | tnil => simp [tpaths] at hq0
        | tleaf s0 => exact insertC_last_left_leaf s0 r s
        | tnode lc rc => exact insertC_last_left_node lc rc r s
      | cons y p'' =>
        cases l with
        | tnil => simp [tpaths] at hq0
        | tleaf s0 => exact insertC_step_left_leaf s0 r s y p''
        | tnode lc rc =>
          rw [insertC_step_left_node]
          rw [ih lc rc s (by simp) hwl ⟨q0, hq0, by rwa [pconfB_cons] at hqconf⟩]
    · obtain rfl : b = true := pconfB_true_head _ _ _ _ hqconf
      cases p' with
      | nil =>
        cases r with
        | tnil => simp [tpaths] at hq0
        | tleaf s0 => exact insertC_last_right_leaf l s0 s
        | tnode lc rc => exact insertC_last_right_node l lc rc s
      | cons y p'' =>
        cases r with
        | tnil => simp [tpaths] at hq0
        | tleaf s0 => exact insertC_step_right_leaf l s0 s y p''
        | tnode lc rc =>
          rw [insertC_step_right_node]
          rw [ih lc rc s (by simp) hwr ⟨q0, hq0, by rwa [pconfB_cons] at hqconf⟩]

theorem insertAll_cons_nil (t : Trie) (s : Nat) (rest : List (List Bool × Nat)) :
    insertAll t (([], s) :: rest) = insertAll t rest := rfl

theorem insertAll_cons_ne (t : Trie) (p : List Bool) (s : Nat)
    (rest : List (List Bool × Nat)) (hp : p ≠ []) :
    insertAll t ((p, s) :: rest) =
      match insertC t p s with
      | none => none
      | some t' => insertAll t' rest := by
  obtain ⟨y, p', rfl⟩ := List.exists_cons_of_ne_nil hp
  rfl

theorem nePaths_cons_nil (s : Nat) (rest : List (List Bool × Nat)) :
    nePaths (([], s) :: rest) = nePaths rest := rfl

theorem nePaths_cons_ne (p : List Bool) (s : Nat) (rest : List (List Bool × Nat))
    (hp : p ≠ []) : nePaths ((p, s) :: rest) = p :: nePaths rest := by
  obtain ⟨y, p', rfl⟩ := List.exists_cons_of_ne_nil hp
  rfl

theorem hasConfB_cons (p : List Bool) (xs : List (List Bool)) :
    hasConfB (p :: xs) = (confAnyB p xs || hasConfB xs) := rfl

theorem confAnyB_false_iff (p : List Bool) (qs : List (List Bool)) :
    confAnyB p qs = false ↔ ∀ q ∈ qs, pconfB p q = false := by
  simp [confAnyB, List.any_eq_false]

theorem confAnyB_true_iff (p : List Bool) (qs : List (List Bool)) :
    confAnyB p qs = true ↔ ∃ q ∈ qs, pconfB p q = true := by
  simp [confAnyB, List.any_eq_true]

theorem insertAll_isSome (items : List (List Bool × Nat)) :
    ∀ (l r : Trie), WF (.tnode l r) →
    ((insertAll (.tnode l r) items).isSome = true ↔
      ((∀ pp ∈ nePaths items, ∀ q ∈ tpaths (.tnode l r), pconfB pp q = false) ∧
        hasConfB (nePaths items) = false)) := by
  induction items with
  | nil =>
    intro l r hwf
    simp [insertAll, nePaths, hasConfB]
  | cons item rest ih =>
    intro l r hwf
    obtain ⟨p, s⟩ := item
    by_cases hp : p = []
    · subst hp
      rw [insertAll_cons_nil, nePaths_cons_nil, ih l r hwf]
    · rw [insertAll_cons_ne _ _ _ _ hp, nePaths_cons_ne _ _ _ hp]
      by_cases hcf : confAnyB p (tpaths (.tnode l r)) = true
      · obtain ⟨q, hq, hqc⟩ := (confAnyB_true_iff _ _).mp hcf
        rw [insertC_conflict_none p l r s hp hwf ⟨q, hq, hqc⟩]
        simp only [Option.isSome_none, Bool.false_eq_true, false_iff]
        rintro ⟨hall, _⟩
        have := hall p (List.mem_cons_self _ _) q hq
        rw [this] at hqc
        cases hqc
      · have hallq : ∀ q ∈ tpaths (.tnode l r), pconfB p q = false :=
          (confAnyB_false_iff _ _).mp (by
            cases hv : confAnyB p (tpaths (.tnode l r)) with
            | true => exact absurd hv hcf
            | false => rfl)
        obtain ⟨t', hins, hwf', _, ⟨l', r', rfl⟩, hmem'⟩ :=
          insertC_some p l r s hp hwf hallq
        rw [hins]
        dsimp only []
        rw [ih l' r' hwf', hasConfB_cons]
        constructor
        · rintro ⟨hrest, hconf⟩
          refine ⟨?_, ?_⟩
          · intro pp hpp q hq
            rcases List.mem_cons.mp hpp with rfl | hpp'
            · exact hallq q hq
            · exact hrest pp hpp' q ((hmem' q).mpr (Or.inl hq))
          · rw [Bool.or_eq_false_iff]
            refine ⟨?_, hconf⟩
            rw [confAnyB_false_iff]
            intro pp hpp
            have := hrest pp hpp p ((hmem' p).mpr (Or.inr rfl))
            rwa [pconfB_comm] at this
        · rintro ⟨hall, hconf⟩
          rw [Bool.or_eq_false_iff] at hconf
          obtain ⟨hcp, hcrest⟩ := hconf
          refine ⟨?_, hcrest⟩
          intro pp hpp q hq
          rcases (hmem' q).mp hq with hq' | rfl
          · exact hall pp (List.mem_cons_of_mem _ hpp) q hq'
          · have := (confAnyB_false_iff _ _).mp hcp pp hpp
            rwa [pconfB_comm] at this

/-- C5 (amended to code-length vectors of size at most 288): building the
Huffman tree fails exactly when the vector contains a length exceeding the
caller-supplied limit or exceeding 15, or when the canonical code
assignment gives two symbols colliding code paths — the same leaf position
(duplicate code) or one path through another's leaf (one code an initial
segment of the other); otherwise the build succeeds. -/
theorem C5_create_tree_failure (L : List Nat) (limit : Nat) (hN : L.length ≤ 288) :
    (create_huffman_tree L limit = none ↔
      ((∃ x ∈ L, limit < x ∨ 15 < x) ∨
        hasConfB (nePaths ((assignAll L).enum.map fun q => (q.2.2, q.1))) = true)) := by
  unfold create_huffman_tree generate_huffman_codes
  rw [if_neg (by omega), if_neg (by omega)]
  by_cases hbad : L.any (fun l => decide (limit < l) || decide (15 < l)) = true
  · rw [if_pos hbad]
    dsimp only []
    constructor
    · intro _
      left
      obtain ⟨x, hx, hxb⟩ := List.any_eq_true.mp hbad
      refine ⟨x, hx, ?_⟩
      simpa using hxb
    · intro _
      rfl
  · have hbad' : L.any (fun l => decide (limit < l) || decide (15 < l)) = false := by
      cases hv : L.any (fun l => decide (limit < l) || decide (15 < l)) with
      | true => exact absurd hv hbad
      | false => rfl
    rw [if_neg (by rw [hbad']; simp)]
    dsimp only []
    have hwfroot : WF (.tnode .tnil .tnil) := ⟨trivial, trivial, Or.inl rfl, Or.inl rfl⟩
    have hiff := insertAll_isSome ((assignAll L).enum.map fun q => (q.2.2, q.1))
      .tnil .tnil hwfroot
    have htriv : ∀ pp ∈ nePaths ((assignAll L).enum.map fun q => (q.2.2, q.1)),
        ∀ q ∈ tpaths (.tnode .tnil .tnil), pconfB pp q = false := by
      intro pp _ q hq
      simp [tpaths] at hq
    constructor
    · intro hnone
      right
      by_contra hc
      have hfalse : hasConfB (nePaths ((assignAll L).enum.map fun q => (q.2.2, q.1)))
          = false := by
        cases hv : hasConfB (nePaths ((assignAll L).enum.map fun q => (q.2.2, q.1))) with
        | true => exact absurd hv hc
        | false => rfl
      have hsome := hiff.mpr ⟨htriv, hfalse⟩
      rw [hnone] at hsome
      cases hsome
    · rintro (⟨x, hx, hxl⟩ | hconf)
      · exfalso
        apply hbad
        refine List.any_eq_true.mpr ⟨x, hx, ?_⟩
        simpa using hxl
      · cases hins : insertAll (.tnode .tnil .tnil)
          ((assignAll L).enum.map fun q => (q.2.2, q.1)) with
        | none => rfl
        | some t'' =>
          have hsome : (insertAll (.tnode .tnil .tnil)
              ((assignAll L).enum.map fun q => (q.2.2, q.1))).isSome = true := by
            rw [hins]
            rfl
          have hch := (hiff.mp hsome).2
          rw [hch] at hconf
          cases hconf

/-- C5 counterexample to the unrestricted claim: a vector of 289 zero
lengths has no over-limit length and no code collision, yet
`create_huffman_tree` fails (the code rejects more than 288 lengths
outright). -/
theorem C5_cex : create_huffman_tree (List.replicate 289 0) 15 = none ∧
    (¬ ∃ x ∈ List.replicate 289 0, 15 < x ∨ 15 < x) ∧
    hasConfB (nePaths ((assignAll (List.replicate 289 0)).enum.map
      fun q => (q.2.2, q.1))) = false := by
  set_option maxRecDepth 4000 in decide

theorem C5_w : create_huffman_tree [1, 1, 1] 15 = none :=
  (C5_create_tree_failure [1, 1, 1] 15 (by decide)).mpr (Or.inr (by decide))

/-! ## Claim C6: canonical code ordering under the Kraft inequality -/

theorem kraftPart_mono (L : List Nat) (b : Nat) : ∀ c, b ≤ c → kraftPart L b ≤ kraftPart L c := by
  intro c
  induction c with
  | zero =>
    intro h
    have hb : b = 0 := by omega
    rw [hb]
  | succ m ih =>
    intro h
    rcases Nat.lt_or_ge b (m + 1) with h' | h'
    · calc kraftPart L b ≤ kraftPart L m := ih (by omega)
        _ ≤ kraftPart L (m + 1) := by
          simp only [kraftPart]
          omega
    · have : b = m + 1 := by omega
      rw [this]

theorem startCode_le_bound (L : List Nat) (hk : kraftSum L ≤ 32768) :
    ∀ b, 1 ≤ b → b ≤ 15 →
      2 ^ (15 - b) * (startCode L b + blCount L b) = kraftPart L b ∧
      startCode L b + blCount L b ≤ 2 ^ b := by
  intro b
  induction b with
  | zero => intro h; omega
  | succ n ih =>
    intro _ hb15
    have hmain : 2 ^ (15 - (n + 1)) * (startCode L (n + 1) + blCount L (n + 1))
        = kraftPart L (n + 1) := by
      by_cases hn : n = 0
      · subst hn
        have hs1 : startCode L 1 = 0 := rfl
        rw [hs1]
        show 2 ^ 14 * (0 + blCount L 1) = kraftPart L 1
        have hkp : kraftPart L 1 = kraftPart L 0 + blCount L 1 * 2 ^ 14 := rfl
        rw [hkp]
        simp [kraftPart]
        ring
      · obtain ⟨heq, hle⟩ := ih (by omega) (by omega)
        have hsc : startCode L (n + 1) = ((startCode L n + blCount L n) * 2) % 65536 := by
          simp [startCode, hn]
        have hsmall : (startCode L n + blCount L n) * 2 < 65536 := by
          have h2n : (2 : Nat) ^ n ≤ 2 ^ 14 := Nat.pow_le_pow_right (by omega) (by omega)
          have : (2 : Nat) ^ 14 = 16384 := by norm_num
          omega
        rw [hsc, Nat.mod_eq_of_lt hsmall]
        have hexp : 15 - (n + 1) = 14 - n := by omega
        rw [hexp]
        have hkp : kraftPart L (n + 1) = kraftPart L n + blCount L (n + 1) * 2 ^ (14 - n) := rfl
        rw [hkp, ← heq]
        have hexp2 : 15 - n = (14 - n) + 1 := by omega
        rw [hexp2, pow_succ]
        ring
    refine ⟨hmain, ?_⟩
    have hle_sum : kraftPart L (n + 1) ≤ 32768 :=
      le_trans (kraftPart_mono L (n + 1) 15 hb15) hk
    rw [← hmain] at hle_sum
    have hsplit : (2 : Nat) ^ 15 = 2 ^ (15 - (n + 1)) * 2 ^ (n + 1) := by
      rw [← pow_add]
      congr 1
      omega
    have h32 : (32768 : Nat) = 2 ^ 15 := by norm_num
    rw [h32, hsplit] at hle_sum
    exact Nat.le_of_mul_le_mul_left hle_sum (Nat.pos_pow_of_pos _ (by omega))

theorem getD_set_ne' (xs : List Nat) (i j a : Nat) (h : i ≠ j) :
    (xs.set i a).getD j 0 = xs.getD j 0 := by
  by_cases hj : j < xs.length
  · rw [List.getD_eq_getElem _ _ (by simpa using hj), List.getD_eq_getElem _ _ hj]
    exact List.getElem_set_ne h _
  · have hj' : xs.length ≤ j := by omega
    rw [List.getD_eq_default _ _ (by simpa using hj'), List.getD_eq_default _ _ hj']

theorem getD_set_self' (xs : List Nat) (i a : Nat) (h : i < xs.length) :
    (xs.set i a).getD i 0 = a := by
  rw [List.getD_eq_getElem _ _ (by simpa using h)]
  exact List.getElem_set_self _

theorem AV_inv_step (rest : List Nat) (nc : List Nat) (x : Nat) (hx : x ≠ 0)
    (hx15 : x ≤ 15) (hlen : nc.length = 16)
    (hinv : ∀ m, 1 ≤ m → m ≤ 15 →
      nc.getD m 0 + (x :: rest).countP (fun v => v == m) ≤ 32768) :
    ∀ m, 1 ≤ m → m ≤ 15 →
      (nc.set x ((nc.getD x 0 + 1) % 65536)).getD m 0
        + rest.countP (fun v => v == m) ≤ 32768 := by
  intro m h1 h15
  by_cases hxm : x = m
  · subst hxm
    have hcnt : (x :: rest).countP (fun v => v == x)
        = rest.countP (fun v => v == x) + 1 := by
      simp [List.countP_cons]
    have h := hinv x h1 h15
    rw [hcnt] at h
    have hmod : (nc.getD x 0 + 1) % 65536 = nc.getD x 0 + 1 :=
      Nat.mod_eq_of_lt (by omega)
    rw [getD_set_self' nc x _ (by omega), hmod]
    omega
  · rw [getD_set_ne' nc x m _ hxm]
    have h := hinv m h1 h15
    have hcnt : (x :: rest).countP (fun v => v == m) = rest.countP (fun v => v == m) := by
      simp [List.countP_cons, hxm]
    omega

theorem AV_inv_step0 (rest : List Nat) (nc : List Nat)
    (hinv : ∀ m, 1 ≤ m → m ≤ 15 →
      nc.getD m 0 + ((0 : Nat) :: rest).countP (fun v => v == m) ≤ 32768) :
    ∀ m, 1 ≤ m → m ≤ 15 →
      nc.getD m 0 + rest.countP (fun v => v == m) ≤ 32768 := by
  intro m h1 h15
  have h := hinv m h1 h15
  have hcnt : ((0 : Nat) :: rest).countP (fun v => v == m)
      = rest.countP (fun v => v == m) := by
    simp [List.countP_cons]
    omega
  omega

theorem AV_lb (rest : List Nat) : ∀ (nc : List Nat) (l j : Nat),
    nc.length = 16 → (∀ v ∈ rest, v ≤ 15) →
    (∀ m, 1 ≤ m → m ≤ 15 →
      nc.getD m 0 + rest.countP (fun v => v == m) ≤ 32768) →
    j < rest.length → rest.getD j 0 = l → 1 ≤ l → l ≤ 15 →
    nc.getD l 0 ≤ ((assignVals rest nc).getD j (0, 0)).2 := by
  induction rest with
  | nil => intro nc l j _ _ _ hj; simp at hj
  | cons x rest ih =>
    intro nc l j hlen hwf hinv hj hval h1 h15
    cases j with
    | zero =>
      have hx : x = l := by simpa using hval
      subst hx
      simp only [assignVals, if_neg (by omega : ¬ x = 0)]
      rw [List.getD_cons_zero]
    | succ j' =>
      by_cases hx0 : x = 0
      · subst hx0
        rw [show assignVals (0 :: rest) nc = (0, 0) :: assignVals rest nc from rfl]
        rw [List.getD_cons_succ]
        exact ih nc l j' hlen (fun v hv => hwf v (List.mem_cons_of_mem _ hv))
          (AV_inv_step0 rest nc hinv) (by simpa using hj) (by simpa using hval) h1 h15
      · simp only [assignVals, if_neg hx0]
        rw [List.getD_cons_succ]
        have hle := ih (nc.set x ((nc.getD x 0 + 1) % 65536)) l j'
          (by rw [List.length_set]; exact hlen)
          (fun v hv => hwf v (List.mem_cons_of_mem _ hv))
          (AV_inv_step rest nc x hx0 (hwf x (List.mem_cons_self _ _)) hlen hinv)
          (by simpa using hj) (by simpa using hval) h1 h15
        by_cases hxl : x = l
        · subst hxl
          have hcnt : (x :: rest).countP (fun v => v == x)
              = rest.countP (fun v => v == x) + 1 := by
            simp [List.countP_cons]
          have h := hinv x h1 h15
          rw [hcnt] at h
          have hget : (nc.set x ((nc.getD x 0 + 1) % 65536)).getD x 0
              = nc.getD x 0 + 1 := by
            rw [getD_set_self' nc x _ (by omega)]
            exact Nat.mod_eq_of_lt (by omega)
          rw [hget] at hle
          omega
        · rwa [getD_set_ne' nc x l _ hxl] at hle

theorem AV_mono (rest : List Nat) : ∀ (nc : List Nat) (l i j : Nat),
    nc.length = 16 → (∀ v ∈ rest, v ≤ 15) →
    (∀ m, 1 ≤ m → m ≤ 15 →
      nc.getD m 0 + rest.countP (fun v => v == m) ≤ 32768) →
    i < j → j < rest.length → rest.getD i 0 = l → rest.getD j 0 = l →
    1 ≤ l → l ≤ 15 →
    ((assignVals rest nc).getD i (0, 0)).2 < ((assignVals rest nc).getD j (0, 0)).2 := by
  induction rest with
  | nil => intro nc l i j _ _ _ _ hj; simp at hj
  | cons x rest ih =>
    intro nc l i j hlen hwf hinv hij hj hvi hvj h1 h15
    cases i with
    | zero =>
      have hx : x = l := by simpa using hvi
      subst hx
      obtain ⟨j', rfl⟩ : ∃ j', j = j' + 1 := ⟨j - 1, by omega⟩
      simp only [assignVals, if_neg (by omega : ¬ x = 0)]
      rw [List.getD_cons_zero, List.getD_cons_succ]
      have hlb := AV_lb rest (nc.set x ((nc.getD x 0 + 1) % 65536)) x j'
        (by rw [List.length_set]; exact hlen)
        (fun v hv => hwf v (List.mem_cons_of_mem _ hv))
        (AV_inv_step rest nc x (by omega) (by omega) hlen hinv)
        (by simpa using hj) (by simpa using hvj) h1 h15
      have hcnt : (x :: rest).countP (fun v => v == x)
          = rest.countP (fun v => v == x) + 1 := by
        simp [List.countP_cons]
      have h := hinv x h1 h15
      rw [hcnt] at h
      have hget : (nc.set x ((nc.getD x 0 + 1) % 65536)).getD x 0
          = nc.getD x 0 + 1 := by
        rw [getD_set_self' nc x _ (by omega)]
        exact Nat.mod_eq_of_lt (by omega)
      rw [hget] at hlb
      dsimp only []
      omega
    | succ i' =>
      obtain ⟨j', rfl⟩ : ∃ j', j = j' + 1 := ⟨j - 1, by omega⟩
      by_cases hx0 : x = 0
      · subst hx0
        rw [show assignVals (0 :: rest) nc = (0, 0) :: assignVals rest nc from rfl]
        rw [List.getD_cons_succ, List.getD_cons_succ]
        exact ih nc l i' j' hlen (fun v hv => hwf v (List.mem_cons_of_mem _ hv))
          (AV_inv_step0 rest nc hinv) (by omega) (by simpa using hj)
          (by simpa using hvi) (by simpa using hvj) h1 h15
      · simp only [assignVals, if_neg hx0]
        rw [List.getD_cons_succ, List.getD_cons_succ]
        exact ih (nc.set x ((nc.getD x 0 + 1) % 65536)) l i' j'
          (by rw [List.length_set]; exact hlen)
          (fun v hv => hwf v (List.mem_cons_of_mem _ hv))
          (AV_inv_step rest nc x hx0 (hwf x (List.mem_cons_self _ _)) hlen hinv)
          (by omega) (by simpa using hj) (by simpa using hvi) (by simpa using hvj) h1 h15


theorem AV_len (rest : List Nat) : ∀ nc, (assignVals rest nc).length = rest.length := by
  induction rest with
  | nil => intro nc; rfl
  | cons x rest ih =>
    intro nc
    by_cases hx0 : x = 0
    · subst hx0
      rw [show assignVals (0 :: rest) nc = (0, 0) :: assignVals rest nc from rfl]
      simp [ih]
    · simp only [assignVals, if_neg hx0]
      simp [ih]

theorem AV_fst (rest : List Nat) : ∀ (nc : List Nat) (j : Nat), j < rest.length →
    ((assignVals rest nc).getD j (0, 0)).1 = rest.getD j 0 := by
  induction rest with
  | nil => intro nc j hj; simp at hj
  | cons x rest ih =>
    intro nc j hj
    by_cases hx0 : x = 0
    · subst hx0
      rw [show assignVals (0 :: rest) nc = (0, 0) :: assignVals rest nc from rfl]
      cases j with
      | zero => simp
      | succ j' =>
        rw [List.getD_cons_succ, List.getD_cons_succ]
        exact ih _ j' (by simpa using hj)
    · simp only [assignVals, if_neg hx0]
      cases j with
      | zero => simp
      | succ j' =>
        rw [List.getD_cons_succ, List.getD_cons_succ]
        exact ih _ j' (by simpa using hj)

theorem codeBits_length (c n : Nat) : (codeBits c n).length = n := by
  simp [codeBits]

theorem getD_map_pair (f : Nat × Nat → Nat × List Bool) (xs : List (Nat × Nat))
    (i : Nat) (h : i < xs.length) (d : Nat × List Bool) (d' : Nat × Nat) :
    (xs.map f).getD i d = f (xs.getD i d') := by
  rw [List.getD_eq_getElem _ _ (by simpa using h), List.getD_eq_getElem _ _ h]
  simp

/-- C6: for a code-length vector of size ≤ 288, all lengths at most the
limit and at most 15, and a valid prefix-code histogram (Kraft sum, scaled
by `2 ^ 15`, at most `2 ^ 15`), `generate_huffman_codes` succeeds; every
symbol of length `L[i] > 0` receives a code of exactly `L[i]` bits; symbols
of length 0 receive no code; and the `(length, code value)` ordering of the
assigned codes coincides with the `(length, symbol index)` ordering. -/
theorem C6_canonical_order (L : List Nat) (limit : Nat)
    (hN : L.length ≤ 288) (hlens : ∀ l ∈ L, l ≤ limit ∧ l ≤ 15)
    (hkraft : kraftSum L ≤ 32768) :
    generate_huffman_codes L limit = some (assignAll L) ∧
    (∀ i, i < L.length →
      ((assignAll L).getD i (0, [])).1 = L.getD i 0 ∧
      ((assignAll L).getD i (0, [])).2.length = L.getD i 0) ∧
    (∀ i, i < L.length → L.getD i 0 = 0 → ((assignAll L).getD i (0, [])).2 = []) ∧
    (∀ i j, i < L.length → j < L.length → 1 ≤ L.getD i 0 → 1 ≤ L.getD j 0 →
      ((L.getD i 0 < L.getD j 0 ∨
          (L.getD i 0 = L.getD j 0 ∧ codeValAt L i < codeValAt L j))
        ↔ (L.getD i 0 < L.getD j 0 ∨ (L.getD i 0 = L.getD j 0 ∧ i < j)))) := by
  have hlen0 : ((List.range 16).map fun b => startCode L b).length = 16 := by simp
  have hnc0 : ∀ m, m < 16 →
      ((List.range 16).map fun b => startCode L b).getD m 0 = startCode L m := by
    intro m hm
    exact getD_map_range 16 (fun b => startCode L b) m hm
  have hinv0 : ∀ m, 1 ≤ m → m ≤ 15 →
      ((List.range 16).map fun b => startCode L b).getD m 0
        + L.countP (fun v => v == m) ≤ 32768 := by
    intro m h1 h15
    rw [hnc0 m (by omega)]
    have hb := (startCode_le_bound L hkraft m h1 h15).2
    have hcnt : L.countP (fun v => v == m) = blCount L m := rfl
    have hpow : (2 : Nat) ^ m ≤ 2 ^ 15 := Nat.pow_le_pow_right (by omega) h15
    have h215 : (2 : Nat) ^ 15 = 32768 := by norm_num
    omega
  have hval : ∀ i, i < L.length → (assignAll L).getD i (0, []) =
      (((assignVals L ((List.range 16).map fun b => startCode L b)).getD i (0, 0)).1,
        codeBits
          ((assignVals L ((List.range 16).map fun b => startCode L b)).getD i (0, 0)).2
          ((assignVals L ((List.range 16).map fun b => startCode L b)).getD i (0, 0)).1) := by
    intro i hi
    unfold assignAll
    rw [getD_map_pair _ _ i (by rw [AV_len]; exact hi) _ (0, 0)]
  have hwf15 : ∀ v ∈ L, v ≤ 15 := fun v hv => (hlens v hv).2
  refine ⟨?_, ?_, ?_, ?_⟩
  · unfold generate_huffman_codes
    rw [if_neg (by omega)]
    rw [if_neg ?hc]
    case hc =>
      have : L.any (fun l => decide (limit < l) || decide (15 < l)) = false := by
        rw [List.any_eq_false]
        intro x hx
        have := hlens x hx
        simp
        omega
      rw [this]
      simp
  · intro i hi
    rw [hval i hi]
    refine ⟨AV_fst L _ i hi, ?_⟩
    rw [codeBits_length]
    exact AV_fst L _ i hi
  · intro i hi hzero
    rw [hval i hi]
    have hf := AV_fst L ((List.range 16).map fun b => startCode L b) i hi
    rw [hf, hzero]
    rfl
  · intro i j hi hj h1i h1j
    have hgmem : ∀ a, a < L.length → L.getD a 0 ∈ L := by
      intro a ha
      rw [List.getD_eq_getElem _ _ ha]
      exact List.getElem_mem _
    have hmono : ∀ a b, a < b → b < L.length → L.getD a 0 = L.getD b 0 →
        1 ≤ L.getD a 0 → codeValAt L a < codeValAt L b := by
      intro a b hab hbl heq hge
      unfold codeValAt
      exact AV_mono L ((List.range 16).map fun c => startCode L c) (L.getD a 0) a b
        hlen0 hwf15 hinv0 hab hbl rfl heq.symm hge
        (hwf15 _ (hgmem a (by omega)))
    constructor
    · rintro (hlt | ⟨heq, hvlt⟩)
      · exact Or.inl hlt
      · right
        refine ⟨heq, ?_⟩
        by_contra hnij
        rcases (by omega : j < i ∨ j = i) with hji | rfl
        · have := hmono j i hji hi heq.symm h1j
          omega
        · omega
    · rintro (hlt | ⟨heq, hij⟩)
      · exact Or.inl hlt
      · exact Or.inr ⟨heq, hmono i j hij hj heq h1i⟩

theorem C6_canonical_order_w :
    generate_huffman_codes [1, 2, 2] 15 = some (assignAll [1, 2, 2]) ∧
    (([1, 2, 2] : List Nat).getD 1 0 < ([1, 2, 2] : List Nat).getD 2 0 ∨
      (([1, 2, 2] : List Nat).getD 1 0 = ([1, 2, 2] : List Nat).getD 2 0 ∧
        codeValAt [1, 2, 2] 1 < codeValAt [1, 2, 2] 2)) :=
  ⟨(C6_canonical_order [1, 2, 2] 15 (by decide) (by decide) (by decide)).1,
   ((C6_canonical_order [1, 2, 2] 15 (by decide) (by decide) (by decide)).2.2.2 1 2
      (by decide) (by decide) (by decide) (by decide)).mpr (Or.inr ⟨by decide, by decide⟩)⟩
